import Mathlib

/-!
# bjh: Bob Jenkins's byte array hash (lookup3), Go implementation

A shallow embedding of `bjh.go`.  A `uint32` is a natural number kept below
`2^32` by an explicit `% 2^32` after every operation that can leave the range.
A `[]byte` is a list of `Fin 256`.  Every indexed read of the input is checked
and returns `none` outside the slice, so a read past the end (a Go panic, or
an unsafe read of foreign memory) makes `Update` return `none`.
-/

namespace Bjh

/-- One `byte` of a Go `[]byte`. -/
abbrev Byte := Fin 256

/-! ## `uint32` arithmetic -/

/-- `x + y` on `uint32`. -/
def add32 (x y : Nat) : Nat := (x + y) % 2 ^ 32

/-- `x - y` on `uint32` (wraps around below zero). -/
def sub32 (x y : Nat) : Nat := (x + (2 ^ 32 - y % 2 ^ 32)) % 2 ^ 32

/-- `x << k` on `uint32`: the bits shifted past bit 31 are lost. -/
def shl32 (x k : Nat) : Nat := (x <<< k) % 2 ^ 32

/-- `x >> k` on `uint32`. -/
def shr32 (x k : Nat) : Nat := x >>> k

/-- `x | y` on `uint32`. -/
def or32 (x y : Nat) : Nat := x ||| y

/-- `x ^ y` on `uint32`. -/
def xor32 (x y : Nat) : Nat := x ^^^ y

/-- The rotation as the Go code writes it: `x<<k | x>>(32 - k)`. -/
def rot (x k : Nat) : Nat := or32 (shl32 x k) (shr32 x (32 - k))

/-! ## The two mixing steps (inlined in `Update`, lines 348-353 and 405-411) -/

/-- The block mix of `Update`, lines 348-353. -/
def mix : Nat × Nat × Nat → Nat × Nat × Nat
  | (a, b, c) =>
  let a := sub32 a c; let a := xor32 a (rot c 4);  let c := add32 c b
  let b := sub32 b a; let b := xor32 b (rot a 6);  let a := add32 a c
  let c := sub32 c b; let c := xor32 c (rot b 8);  let b := add32 b a
  let a := sub32 a c; let a := xor32 a (rot c 16); let c := add32 c b
  let b := sub32 b a; let b := xor32 b (rot a 19); let a := add32 a c
  let c := sub32 c b; let c := xor32 c (rot b 4);  let b := add32 b a
  (a, b, c)

/-- The final mix of `Update`, lines 405-411. -/
def final : Nat × Nat × Nat → Nat × Nat × Nat
  | (a, b, c) =>
  let c := xor32 c b; let c := sub32 c (rot b 14)
  let a := xor32 a c; let a := sub32 a (rot c 11)
  let b := xor32 b a; let b := sub32 b (rot a 25)
  let c := xor32 c b; let c := sub32 c (rot b 16)
  let a := xor32 a c; let a := sub32 a (rot c 4)
  let b := xor32 b a; let b := sub32 b (rot a 14)
  let c := xor32 c b; let c := sub32 c (rot b 24)
  (a, b, c)

/-! ## Reading the input -/

/-- The checked read `uint32(data[i])`. -/
def byteAt (data : List Byte) (i : Nat) : Option Nat :=
  data[i]?.map (fun x => x.val)

/-- The unsafe read `*(*uint32)(unsafe.Pointer(k))` of lines 288-290, with `k`
the offset from `&data[0]`: the four bytes at `k .. k+3` taken as one
little-endian word.  It is `none` when one of the four bytes lies outside
`data`. -/
def readWord (data : List Byte) (k : Nat) : Option Nat := do
  let b0 ← byteAt data k
  let b1 ← byteAt data (k + 1)
  let b2 ← byteAt data (k + 2)
  let b3 ← byteAt data (k + 3)
  pure (b0 + 2 ^ 8 * b1 + 2 ^ 16 * b2 + 2 ^ 24 * b3)

/-! ## `Update` -/

/-- The block loop of `Update`, lines 287-354: `for ; remain > 12; remain -= 12`,
with `k` the offset of the read pointer from `&data[0]`.  The first argument
bounds the number of iterations.  The result is `(remain, a, b, c)` at loop
exit. -/
def blockLoop : Nat → List Byte → Nat → Nat → Nat → Nat → Nat → Option (Nat × Nat × Nat × Nat)
  | fuel, data, k, remain, a, b, c =>
    if remain > 12 then
      match fuel with
      | 0 => none
      | fuel + 1 => do
        let w0 ← readWord data k
        let a := add32 a w0
        let w1 ← readWord data (k + 4)
        let b := add32 b w1
        let w2 ← readWord data (k + 8)
        let c := add32 c w2
        let k := k + 12
        let (a, b, c) := mix (a, b, c)
        blockLoop fuel data k (remain - 12) a b c
    else some (remain, a, b, c)

/-- The four statements `val = uint32(data[i]); i++; val |= uint32(data[i]) << 8;
i++; ...` of the portable `Update`, lines 134-137: the word read and the index
after it. -/
def readBytes (data : List Byte) (i : Nat) : Option (Nat × Nat) := do
  let d ← byteAt data i
  let val := d
  let i := i + 1
  let d ← byteAt data i
  let val := or32 val (shl32 d 8)
  let i := i + 1
  let d ← byteAt data i
  let val := or32 val (shl32 d 16)
  let i := i + 1
  let d ← byteAt data i
  let val := or32 val (shl32 d 24)
  let i := i + 1
  pure (val, i)

/-- The block loop of the portable `Update`, lines 133-212 (commented out in the
source): `for i := 0; remain > 12; remain -= 12`. -/
def blockLoopPortable :
    Nat → List Byte → Nat → Nat → Nat → Nat → Nat → Option (Nat × Nat × Nat × Nat)
  | fuel, data, i, remain, a, b, c =>
    if remain > 12 then
      match fuel with
      | 0 => none
      | fuel + 1 => do
        let (val, i) ← readBytes data i
        let a := add32 a val
        let (val, i) ← readBytes data i
        let b := add32 b val
        let (val, i) ← readBytes data i
        let c := add32 c val
        let (a, b, c) := mix (a, b, c)
        blockLoopPortable fuel data i (remain - 12) a b c
    else some (remain, a, b, c)

/-- One `case j:` of the tail switch, lines 360-371: entered when the switch
value is at least `j` (the cases fall through downwards), it adds
`uint32(data[j-1]) << s` to the accumulator `x`. -/
def tailCase (data : List Byte) (remain j s x : Nat) : Option Nat :=
  if remain ≥ j then do
    let d ← byteAt data (j - 1)
    pure (add32 x (shl32 d s))
  else some x

/-- Cases 12 to 9 of the tail switch, lines 360-363, which add into `c`. -/
def tailC (data : List Byte) (remain c : Nat) : Option Nat := do
  let c ← tailCase data remain 12 24 c
  let c ← tailCase data remain 11 16 c
  let c ← tailCase data remain 10 8 c
  let c ← tailCase data remain 9 0 c
  pure c

/-- Cases 8 to 5 of the tail switch, lines 364-367, which add into `b`. -/
def tailB (data : List Byte) (remain b : Nat) : Option Nat := do
  let b ← tailCase data remain 8 24 b
  let b ← tailCase data remain 7 16 b
  let b ← tailCase data remain 6 8 b
  let b ← tailCase data remain 5 0 b
  pure b

/-- Cases 4 to 1 of the tail switch, lines 368-371, which add into `a`. -/
def tailA (data : List Byte) (remain a : Nat) : Option Nat := do
  let a ← tailCase data remain 4 24 a
  let a ← tailCase data remain 3 16 a
  let a ← tailCase data remain 2 8 a
  let a ← tailCase data remain 1 0 a
  pure a

/-- The last block of `Update`, lines 358-412: the tail switch on `remain`
over `data[lenData - remain:]`, followed inside `case 1` by the final mix.
A value of `remain` outside `1 .. 12` matches no case. -/
def lastBlock (data : List Byte) (lenData remain a b c : Nat) : Option (Nat × Nat × Nat) :=
  let data := data.drop (lenData - remain)
  if 1 ≤ remain ∧ remain ≤ 12 then do
    let c ← tailC data remain c
    let b ← tailB data remain b
    let a ← tailA data remain a
    pure (final (a, b, c))
  else some (a, b, c)

/-- `Update`, lines 279-414: the fast version, reading 4 bytes at a time. -/
def Update (data : List Byte) (a b c : Nat) : Option (Nat × Nat × Nat) :=
  let lenData := data.length
  if lenData = 0 then some (a, b, c)
  else do
    let remain := lenData
    let k := 0
    let (remain, a, b, c) ← blockLoop lenData data k remain a b c
    lastBlock data lenData remain a b c

/-- The portable `Update` of lines 126-272 (commented out in the source),
reading one byte at a time; its last block, lines 216-270, is the text of
lines 358-412. -/
def UpdatePortable (data : List Byte) (a b c : Nat) : Option (Nat × Nat × Nat) :=
  let lenData := data.length
  if lenData = 0 then some (a, b, c)
  else do
    let remain := lenData
    let (remain, a, b, c) ← blockLoopPortable lenData data 0 remain a b c
    lastBlock data lenData remain a b c

/-! ## The streaming digest and the one-shot functions -/

/-- The struct `digest`, lines 34-37. -/
structure digest where
  initval0 : Nat
  initval1 : Nat
  a : Nat
  b : Nat
  c : Nat
deriving DecidableEq, Repr

/-- A Go `error` value; `none` is `nil`. -/
abbrev error := Option String

/-- The method `Reset`, lines 84-87. -/
def digest.Reset (d : digest) : digest :=
  let d := { d with a := add32 0xdeadbeef d.initval0 }
  { d with b := d.a, c := add32 d.a d.initval1 }

/-- `NewBJH`, lines 46-51: `new(digest)` has every field zero. -/
def NewBJH (initval0 initval1 : Nat) : digest :=
  let d : digest := { initval0 := 0, initval1 := 0, a := 0, b := 0, c := 0 }
  let d := { d with initval0 := initval0, initval1 := initval1 }
  d.Reset

/-- `New`, lines 40-42. -/
def New : digest := NewBJH 0 0

/-- The constant `Size`, line 65. -/
def Size : Nat := 4

/-- The method `BlockSize`, line 72. -/
def digest.BlockSize (_d : digest) : Nat := Size * 3

/-- The method `Size`, line 74. -/
def digest.Size (_d : digest) : Nat := Bjh.Size

/-- The method `Sum32`, line 76. -/
def digest.Sum32 (d : digest) : Nat := d.c

/-- The conversion `byte(x)` of a `uint32`: the low 8 bits. -/
def byte (x : Nat) : Byte := Fin.ofNat x

/-- The method `Sum`, lines 55-62. -/
def digest.Sum (d : digest) (b : List Byte) : List Byte :=
  let s := d.Sum32
  let b := b ++ [byte (shr32 s 24)]
  let b := b ++ [byte (shr32 s 16)]
  let b := b ++ [byte (shr32 s 8)]
  let b := b ++ [byte s]
  b

/-- The method `Write`, lines 79-82: the digest after the call together with
the returned `(int, error)`. -/
def digest.Write (d : digest) (data : List Byte) : Option (digest × Nat × error) := do
  let (a, b, c) ← Update data d.a d.b d.c
  let d := { d with a := a, b := b, c := c }
  pure (d, data.length, none)

/-- `CheckSum2`, lines 95-103. -/
def CheckSum2 (data : List Byte) (initval0 initval1 : Nat) : Option (Nat × Nat) := do
  let a := add32 0xdeadbeef initval0
  let (b, c) := (a, add32 a initval1)
  let (_, b, c) ← Update data a b c
  pure (c, b)

/-- `CheckSum1`, lines 106-111. -/
def CheckSum1 (data : List Byte) (initval0 initval1 : Nat) : Option Nat := do
  let a := add32 0xdeadbeef initval0
  let (b, c) := (a, add32 a initval1)
  let (_, _, c) ← Update data a b c
  pure c

/-- `CheckSum`, lines 115-118. -/
def CheckSum (data : List Byte) : Option Nat := do
  let (_, _, c) ← Update data 0xdeadbeef 0xdeadbeef 0xdeadbeef
  pure c

/-- The bytes of a string of ASCII characters, `[]byte(s)`. -/
def bytes (s : String) : List Byte := s.toList.map (fun ch => Fin.ofNat ch.toNat)

/-! ## Definitions used to state the properties -/

/-- The inverse of `mix`: its eighteen statements undone in reverse order. -/
def unmix : Nat × Nat × Nat → Nat × Nat × Nat
  | (a, b, c) =>
  let b := sub32 b a; let c := xor32 c (rot b 4);  let c := add32 c b
  let a := sub32 a c; let b := xor32 b (rot a 19); let b := add32 b a
  let c := sub32 c b; let a := xor32 a (rot c 16); let a := add32 a c
  let b := sub32 b a; let c := xor32 c (rot b 8);  let c := add32 c b
  let a := sub32 a c; let b := xor32 b (rot a 6);  let b := add32 b a
  let c := sub32 c b; let a := xor32 a (rot c 4);  let a := add32 a c
  (a, b, c)

/-- The three components of a triple are 32-bit words. -/
def Word3 (t : Nat × Nat × Nat) : Prop := t.1 < 2 ^ 32 ∧ t.2.1 < 2 ^ 32 ∧ t.2.2 < 2 ^ 32

instance decidableWord3 (t : Nat × Nat × Nat) : Decidable (Word3 t) := by
  unfold Word3
  infer_instance

/-- One line `x -= z; x ^= rot(z, k); z += y` of `mix`, on `(x, y, z)`. -/
def mixLine (k : Nat) : Nat × Nat × Nat → Nat × Nat × Nat
  | (x, y, z) => (xor32 (sub32 x z) (rot z k), y, add32 z y)

/-- The line `z -= y; x ^= rot(z, k); x += z` undoing `mixLine`. -/
def unmixLine (k : Nat) : Nat × Nat × Nat → Nat × Nat × Nat
  | (x, y, z) => (add32 (xor32 x (rot (sub32 z y) k)) (sub32 z y), y, sub32 z y)

/-- The change of roles between two lines of `mix`: `(a, b, c)` to `(b, c, a)`. -/
def cyc : Nat × Nat × Nat → Nat × Nat × Nat
  | (x, y, z) => (y, z, x)

/-- The inverse change of roles. -/
def uncyc : Nat × Nat × Nat → Nat × Nat × Nat
  | (x, y, z) => (z, x, y)

/-- The loop body of `Update`, lines 288-353, at offset `k`: the three word
reads, the three additions and the mix. -/
def blockStep (data : List Byte) (k a b c : Nat) : Option (Nat × Nat × Nat) := do
  let w0 ← readWord data k
  let w1 ← readWord data (k + 4)
  let w2 ← readWord data (k + 8)
  pure (mix (add32 a w0, add32 b w1, add32 c w2))

/-- The loop body of `Update` applied to the first `m` blocks of 12 bytes of
`data` in order, with no final mix. -/
def absorbBlocks : Nat → List Byte → Nat → Nat → Nat → Option (Nat × Nat × Nat)
  | 0, _, a, b, c => some (a, b, c)
  | m + 1, data, a, b, c =>
    (blockStep data 0 a b c).bind fun t => absorbBlocks m (data.drop 12) t.1 t.2.1 t.2.2

/-- `Update` applied to the pieces in order, the returned `(a, b, c)` carried
into the next call. -/
def updateChain : List (List Byte) → Nat → Nat → Nat → Option (Nat × Nat × Nat)
  | [], a, b, c => some (a, b, c)
  | X :: rest, a, b, c =>
    (Update X a b c).bind fun t => updateChain rest t.1 t.2.1 t.2.2

/-- The third component of `Update` from the triple `a = b = c = 0xCafeBaba`
of `Test1`. -/
def test1 (s : String) : Option Nat :=
  (Update (bytes s) 0xCafeBaba 0xCafeBaba 0xCafeBaba).map (fun t => t.2.2)

/-- Byte `i` of `data`, or a zero byte past its end: `data` padded with zero
bytes. -/
def byteOr0 (data : List Byte) (i : Nat) : Nat := (byteAt data i).getD 0

/-- The little-endian 32-bit word of bytes `k .. k+3` of `data` padded with zero
bytes. -/
def wordLE (data : List Byte) (k : Nat) : Nat :=
  byteOr0 data k + 2 ^ 8 * byteOr0 data (k + 1) + 2 ^ 16 * byteOr0 data (k + 2)
    + 2 ^ 24 * byteOr0 data (k + 3)

/-- The triple after the three words of the first 12 bytes of `data`, padded
with zero bytes, are added to `(a, b, c)`. -/
def addWords (data : List Byte) (t : Nat × Nat × Nat) : Nat × Nat × Nat :=
  (add32 t.1 (wordLE data 0), add32 t.2.1 (wordLE data 4), add32 t.2.2 (wordLE data 8))

/-- The inverse of `final`: its fourteen statements undone in reverse order. -/
def unfinal : Nat × Nat × Nat → Nat × Nat × Nat
  | (a, b, c) =>
  let c := add32 c (rot b 24); let c := xor32 c b
  let b := add32 b (rot a 14); let b := xor32 b a
  let a := add32 a (rot c 4);  let a := xor32 a c
  let c := add32 c (rot b 16); let c := xor32 c b
  let b := add32 b (rot a 25); let b := xor32 b a
  let a := add32 a (rot c 11); let a := xor32 a c
  let c := add32 c (rot b 14); let c := xor32 c b
  (a, b, c)

/-- One line `x ^= y; x -= rot(y, k)` of `final`, on `(x, y, z)`. -/
def finalLine (k : Nat) : Nat × Nat × Nat → Nat × Nat × Nat
  | (x, y, z) => (sub32 (xor32 x y) (rot y k), y, z)

/-- The line `x += rot(y, k); x ^= y` undoing `finalLine`. -/
def unfinalLine (k : Nat) : Nat × Nat × Nat → Nat × Nat × Nat
  | (x, y, z) => (xor32 (add32 x (rot y k)) y, y, z)

/-- The exchange of the first and third component. -/
def swap13 : Nat × Nat × Nat → Nat × Nat × Nat
  | (x, y, z) => (z, y, x)

/-- The triple with the three words of the first 12 bytes of `data`, padded
with zero bytes, subtracted: the inverse of `addWords`. -/
def subWords (data : List Byte) (t : Nat × Nat × Nat) : Nat × Nat × Nat :=
  (sub32 t.1 (wordLE data 0), sub32 t.2.1 (wordLE data 4), sub32 t.2.2 (wordLE data 8))

/-- `Update` from a triple. -/
def Update3 (data : List Byte) (t : Nat × Nat × Nat) : Option (Nat × Nat × Nat) :=
  Update data t.1 t.2.1 t.2.2

/-- The big-endian value of a byte sequence. -/
def decodeBE (bs : List Byte) : Nat := bs.foldl (fun acc x => acc * 256 + x.val) 0

/-! ## Word arithmetic lemmas -/

theorem add32_lt (x y : Nat) : add32 x y < 2 ^ 32 := by
  unfold add32; omega

theorem sub32_lt (x y : Nat) : sub32 x y < 2 ^ 32 := by
  unfold sub32; omega

theorem shl32_lt (x k : Nat) : shl32 x k < 2 ^ 32 := by
  unfold shl32; omega

theorem shr32_lt {x : Nat} (hx : x < 2 ^ 32) (k : Nat) : shr32 x k < 2 ^ 32 :=
  Nat.lt_of_le_of_lt (by rw [shr32, Nat.shiftRight_eq_div_pow]; exact Nat.div_le_self x _) hx

theorem xor32_lt {x y : Nat} (hx : x < 2 ^ 32) (hy : y < 2 ^ 32) : xor32 x y < 2 ^ 32 :=
  Nat.xor_lt_two_pow hx hy

theorem rot_lt {x : Nat} (hx : x < 2 ^ 32) (k : Nat) : rot x k < 2 ^ 32 :=
  Nat.or_lt_two_pow (shl32_lt x k) (shr32_lt hx _)

theorem add32_sub32_cancel {x : Nat} (hx : x < 2 ^ 32) (y : Nat) :
    add32 (sub32 x y) y = x := by
  unfold add32 sub32; omega

theorem sub32_add32_cancel {x : Nat} (hx : x < 2 ^ 32) (y : Nat) :
    sub32 (add32 x y) y = x := by
  unfold add32 sub32; omega

theorem xor32_cancel (x y : Nat) : xor32 (xor32 x y) y = x := by
  unfold xor32; rw [Nat.xor_assoc, Nat.xor_self, Nat.xor_zero]

/-! ## The block mix is reversible -/

theorem mixLine_word3 (k : Nat) {t : Nat × Nat × Nat} (h : Word3 t) : Word3 (mixLine k t) := by
  obtain ⟨x, y, z⟩ := t
  exact ⟨xor32_lt (sub32_lt _ _) (rot_lt h.2.2 k), h.2.1, add32_lt _ _⟩

theorem unmixLine_word3 (k : Nat) {t : Nat × Nat × Nat} (h : Word3 t) :
    Word3 (unmixLine k t) := by
  obtain ⟨x, y, z⟩ := t
  exact ⟨add32_lt _ _, h.2.1, sub32_lt _ _⟩

theorem cyc_word3 {t : Nat × Nat × Nat} (h : Word3 t) : Word3 (cyc t) := by
  obtain ⟨x, y, z⟩ := t
  exact ⟨h.2.1, h.2.2, h.1⟩

theorem uncyc_word3 {t : Nat × Nat × Nat} (h : Word3 t) : Word3 (uncyc t) := by
  obtain ⟨x, y, z⟩ := t
  exact ⟨h.2.2, h.1, h.2.1⟩

theorem uncyc_cyc (t : Nat × Nat × Nat) : uncyc (cyc t) = t := rfl

theorem cyc_uncyc (t : Nat × Nat × Nat) : cyc (uncyc t) = t := rfl

theorem unmixLine_mixLine (k : Nat) {t : Nat × Nat × Nat} (h : Word3 t) :
    unmixLine k (mixLine k t) = t := by
  obtain ⟨x, y, z⟩ := t
  simp only [unmixLine, mixLine, sub32_add32_cancel h.2.2, xor32_cancel,
    add32_sub32_cancel h.1]

theorem mixLine_unmixLine (k : Nat) {t : Nat × Nat × Nat} (h : Word3 t) :
    mixLine k (unmixLine k t) = t := by
  obtain ⟨x, y, z⟩ := t
  simp only [unmixLine, mixLine,
    sub32_add32_cancel (xor32_lt h.1 (rot_lt (sub32_lt z y) k)), xor32_cancel,
    add32_sub32_cancel h.2.2]

theorem mix_eq_lines (t : Nat × Nat × Nat) :
    mix t = cyc (mixLine 4 (cyc (mixLine 19 (cyc (mixLine 16
      (cyc (mixLine 8 (cyc (mixLine 6 (cyc (mixLine 4 t))))))))))) := rfl

theorem unmix_eq_lines (t : Nat × Nat × Nat) :
    unmix t = unmixLine 4 (uncyc (unmixLine 6 (uncyc (unmixLine 8
      (uncyc (unmixLine 16 (uncyc (unmixLine 19 (uncyc (unmixLine 4 (uncyc t))))))))))) := rfl

theorem mix_word3 {t : Nat × Nat × Nat} (h : Word3 t) : Word3 (mix t) := by
  rw [mix_eq_lines]
  exact cyc_word3 (mixLine_word3 4 (cyc_word3 (mixLine_word3 19 (cyc_word3 (mixLine_word3 16
    (cyc_word3 (mixLine_word3 8 (cyc_word3 (mixLine_word3 6 (cyc_word3
      (mixLine_word3 4 h)))))))))))

theorem unmix_word3 {t : Nat × Nat × Nat} (h : Word3 t) : Word3 (unmix t) := by
  rw [unmix_eq_lines]
  exact unmixLine_word3 4 (uncyc_word3 (unmixLine_word3 6 (uncyc_word3 (unmixLine_word3 8
    (uncyc_word3 (unmixLine_word3 16 (uncyc_word3 (unmixLine_word3 19 (uncyc_word3
      (unmixLine_word3 4 (uncyc_word3 h)))))))))))

theorem unmix_mix {t : Nat × Nat × Nat} (h : Word3 t) : unmix (mix t) = t := by
  have h1 := mixLine_word3 4 h
  have h2 := mixLine_word3 6 (cyc_word3 h1)
  have h3 := mixLine_word3 8 (cyc_word3 h2)
  have h4 := mixLine_word3 16 (cyc_word3 h3)
  have h5 := mixLine_word3 19 (cyc_word3 h4)
  rw [mix_eq_lines, unmix_eq_lines, uncyc_cyc, unmixLine_mixLine 4 (cyc_word3 h5),
    uncyc_cyc, unmixLine_mixLine 19 (cyc_word3 h4), uncyc_cyc,
    unmixLine_mixLine 16 (cyc_word3 h3), uncyc_cyc, unmixLine_mixLine 8 (cyc_word3 h2),
    uncyc_cyc, unmixLine_mixLine 6 (cyc_word3 h1), uncyc_cyc, unmixLine_mixLine 4 h]

theorem mix_unmix {t : Nat × Nat × Nat} (h : Word3 t) : mix (unmix t) = t := by
  have h1 := unmixLine_word3 4 (uncyc_word3 h)
  have h2 := unmixLine_word3 19 (uncyc_word3 h1)
  have h3 := unmixLine_word3 16 (uncyc_word3 h2)
  have h4 := unmixLine_word3 8 (uncyc_word3 h3)
  have h5 := unmixLine_word3 6 (uncyc_word3 h4)
  rw [mix_eq_lines, unmix_eq_lines, mixLine_unmixLine 4 (uncyc_word3 h5), cyc_uncyc,
    mixLine_unmixLine 6 (uncyc_word3 h4), cyc_uncyc, mixLine_unmixLine 8 (uncyc_word3 h3),
    cyc_uncyc, mixLine_unmixLine 16 (uncyc_word3 h2), cyc_uncyc,
    mixLine_unmixLine 19 (uncyc_word3 h1), cyc_uncyc, mixLine_unmixLine 4 (uncyc_word3 h),
    cyc_uncyc]

/-! ## Reads -/

theorem byteAt_append_right (pre data : List Byte) (i : Nat) :
    byteAt (pre ++ data) (pre.length + i) = byteAt data i := by
  unfold byteAt
  rw [List.getElem?_append_right (Nat.le_add_right _ _), Nat.add_sub_cancel_left]

theorem byteAt_append_left {pre : List Byte} {i : Nat} (h : i < pre.length)
    (data : List Byte) : byteAt (pre ++ data) i = byteAt pre i := by
  unfold byteAt
  rw [List.getElem?_append_left h]

theorem byteAt_isSome {data : List Byte} {i : Nat} (h : i < data.length) :
    ∃ d, byteAt data i = some d ∧ d < 256 := by
  refine ⟨(data[i]).val, ?_, (data[i]).isLt⟩
  unfold byteAt
  rw [List.getElem?_eq_getElem h]
  rfl

theorem readWord_append_right (pre data : List Byte) (k : Nat) :
    readWord (pre ++ data) (pre.length + k) = readWord data k := by
  unfold readWord
  rw [Nat.add_assoc, Nat.add_assoc, Nat.add_assoc, byteAt_append_right, byteAt_append_right,
    byteAt_append_right, byteAt_append_right]

theorem readWord_append_left {pre : List Byte} {k : Nat} (h : k + 3 < pre.length)
    (data : List Byte) : readWord (pre ++ data) k = readWord pre k := by
  unfold readWord
  rw [byteAt_append_left (by omega), byteAt_append_left (by omega),
    byteAt_append_left (by omega), byteAt_append_left (by omega)]

theorem readWord_isSome {data : List Byte} {k : Nat} (h : k + 3 < data.length) :
    ∃ w, readWord data k = some w := by
  obtain ⟨d0, h0, _⟩ := byteAt_isSome (show k < data.length by omega)
  obtain ⟨d1, h1, _⟩ := byteAt_isSome (show k + 1 < data.length by omega)
  obtain ⟨d2, h2, _⟩ := byteAt_isSome (show k + 2 < data.length by omega)
  obtain ⟨d3, h3, _⟩ := byteAt_isSome (show k + 3 < data.length by omega)
  unfold readWord
  rw [h0, h1, h2, h3]
  exact ⟨_, rfl⟩

/-! ## The block loop -/

theorem blockLoop_exit (fuel : Nat) (data : List Byte) (k : Nat) {remain : Nat} (a b c : Nat)
    (h : remain ≤ 12) : blockLoop fuel data k remain a b c = some (remain, a, b, c) := by
  unfold blockLoop
  rw [if_neg (by omega)]

theorem blockLoop_step (fuel : Nat) (data : List Byte) (k : Nat) {remain : Nat} (a b c : Nat)
    (h : 12 < remain) :
    blockLoop (fuel + 1) data k remain a b c =
      (blockStep data k a b c).bind
        (fun t => blockLoop fuel data (k + 12) (remain - 12) t.1 t.2.1 t.2.2) := by
  rw [blockLoop, if_pos h]
  unfold blockStep
  cases readWord data k <;> cases readWord data (k + 4) <;> cases readWord data (k + 8) <;> rfl

theorem blockStep_append_right (pre data : List Byte) (k a b c : Nat) :
    blockStep (pre ++ data) (pre.length + k) a b c = blockStep data k a b c := by
  unfold blockStep
  rw [Nat.add_assoc, Nat.add_assoc, readWord_append_right, readWord_append_right,
    readWord_append_right]

theorem blockStep_append_left {pre : List Byte} {k : Nat} (h : k + 11 < pre.length)
    (data : List Byte) (a b c : Nat) :
    blockStep (pre ++ data) k a b c = blockStep pre k a b c := by
  unfold blockStep
  rw [readWord_append_left (by omega), readWord_append_left (by omega),
    readWord_append_left (by omega)]

theorem blockStep_isSome {data : List Byte} {k : Nat} (h : k + 11 < data.length)
    (a b c : Nat) : ∃ t, blockStep data k a b c = some t := by
  obtain ⟨w0, h0⟩ := readWord_isSome (show k + 3 < data.length by omega)
  obtain ⟨w1, h1⟩ := readWord_isSome (show k + 4 + 3 < data.length by omega)
  obtain ⟨w2, h2⟩ := readWord_isSome (show k + 8 + 3 < data.length by omega)
  unfold blockStep
  rw [h0, h1, h2]
  exact ⟨_, rfl⟩

theorem blockLoop_append_right (pre data : List Byte) :
    ∀ (fuel k remain a b c : Nat),
      blockLoop fuel (pre ++ data) (pre.length + k) remain a b c
        = blockLoop fuel data k remain a b c := by
  intro fuel
  induction fuel with
  | zero =>
    intro k remain a b c
    unfold blockLoop
    rfl
  | succ fuel ih =>
    intro k remain a b c
    by_cases h : 12 < remain
    · rw [blockLoop_step _ _ _ _ _ _ h, blockLoop_step _ _ _ _ _ _ h, blockStep_append_right]
      congr 1
      funext t
      rw [Nat.add_assoc, ih]
    · rw [blockLoop_exit _ _ _ _ _ _ (by omega), blockLoop_exit _ _ _ _ _ _ (by omega)]

theorem blockLoop_fuel_succ (data : List Byte) :
    ∀ (fuel k remain a b c : Nat), remain ≤ 12 * fuel + 12 →
      blockLoop (fuel + 1) data k remain a b c = blockLoop fuel data k remain a b c := by
  intro fuel
  induction fuel with
  | zero =>
    intro k remain a b c h
    rw [blockLoop_exit _ _ _ _ _ _ (by omega), blockLoop_exit _ _ _ _ _ _ (by omega)]
  | succ fuel ih =>
    intro k remain a b c h
    by_cases h12 : 12 < remain
    · rw [blockLoop_step _ _ _ _ _ _ h12, blockLoop_step _ _ _ _ _ _ h12]
      congr 1
      funext t
      exact ih _ _ _ _ _ (by omega)
    · rw [blockLoop_exit _ _ _ _ _ _ (by omega), blockLoop_exit _ _ _ _ _ _ (by omega)]

theorem blockLoop_fuel_add (data : List Byte) (fuel : Nat) {remain : Nat}
    (h : remain ≤ 12 * fuel + 12) (k a b c : Nat) :
    ∀ n, blockLoop (fuel + n) data k remain a b c = blockLoop fuel data k remain a b c := by
  intro n
  induction n with
  | zero => rfl
  | succ n ih =>
    rw [← Nat.add_assoc, blockLoop_fuel_succ _ _ _ _ _ _ _ (by omega), ih]

theorem blockLoop_total (data : List Byte) :
    ∀ (fuel k remain a b c : Nat), remain ≤ 12 * fuel + 12 → k + remain ≤ data.length →
      ∃ r a1 b1 c1, blockLoop fuel data k remain a b c = some (r, a1, b1, c1) ∧
        r ≤ remain ∧ r ≤ 12 ∧ (1 ≤ remain → 1 ≤ r) := by
  intro fuel
  induction fuel with
  | zero =>
    intro k remain a b c h _
    exact ⟨remain, a, b, c, blockLoop_exit _ _ _ _ _ _ (by omega), Nat.le_refl _, by omega,
      fun h1 => h1⟩
  | succ fuel ih =>
    intro k remain a b c h hk
    by_cases h12 : 12 < remain
    · obtain ⟨t, ht⟩ := blockStep_isSome (show k + 11 < data.length by omega) a b c
      obtain ⟨r, a1, b1, c1, hr, h1, h2, h3⟩ :=
        ih (k + 12) (remain - 12) t.1 t.2.1 t.2.2 (by omega) (by omega)
      refine ⟨r, a1, b1, c1, ?_, by omega, h2, fun _ => h3 (by omega)⟩
      rw [blockLoop_step _ _ _ _ _ _ h12, ht]
      exact hr
    · exact ⟨remain, a, b, c, blockLoop_exit _ _ _ _ _ _ (by omega), Nat.le_refl _, by omega,
        fun h1 => h1⟩

/-! ## The last block -/

theorem tailCase_total {data : List Byte} {remain j : Nat} (h : j ≤ remain → j - 1 < data.length)
    (s x : Nat) : ∃ y, tailCase data remain j s x = some y := by
  unfold tailCase
  by_cases hj : remain ≥ j
  · obtain ⟨d, hd, _⟩ := byteAt_isSome (h hj)
    rw [if_pos hj, hd]
    exact ⟨_, rfl⟩
  · rw [if_neg hj]
    exact ⟨_, rfl⟩

theorem tailC_total {data : List Byte} {remain : Nat} (h : remain ≤ data.length) (c : Nat) :
    ∃ y, tailC data remain c = some y := by
  unfold tailC
  obtain ⟨c1, h1⟩ := @tailCase_total data remain 12
    (by omega) 24 c
  obtain ⟨c2, h2⟩ := @tailCase_total data remain 11
    (by omega) 16 c1
  obtain ⟨c3, h3⟩ := @tailCase_total data remain 10
    (by omega) 8 c2
  obtain ⟨c4, h4⟩ := @tailCase_total data remain 9
    (by omega) 0 c3
  rw [h1, Option.bind_eq_bind, Option.some_bind, h2, Option.some_bind, h3, Option.some_bind, h4]
  exact ⟨_, rfl⟩

theorem tailB_total {data : List Byte} {remain : Nat} (h : remain ≤ data.length) (b : Nat) :
    ∃ y, tailB data remain b = some y := by
  unfold tailB
  obtain ⟨b1, h1⟩ := @tailCase_total data remain 8
    (by omega) 24 b
  obtain ⟨b2, h2⟩ := @tailCase_total data remain 7
    (by omega) 16 b1
  obtain ⟨b3, h3⟩ := @tailCase_total data remain 6
    (by omega) 8 b2
  obtain ⟨b4, h4⟩ := @tailCase_total data remain 5
    (by omega) 0 b3
  rw [h1, Option.bind_eq_bind, Option.some_bind, h2, Option.some_bind, h3, Option.some_bind, h4]
  exact ⟨_, rfl⟩

theorem tailA_total {data : List Byte} {remain : Nat} (h : remain ≤ data.length) (a : Nat) :
    ∃ y, tailA data remain a = some y := by
  unfold tailA
  obtain ⟨a1, h1⟩ := @tailCase_total data remain 4
    (by omega) 24 a
  obtain ⟨a2, h2⟩ := @tailCase_total data remain 3
    (by omega) 16 a1
  obtain ⟨a3, h3⟩ := @tailCase_total data remain 2
    (by omega) 8 a2
  obtain ⟨a4, h4⟩ := @tailCase_total data remain 1
    (by omega) 0 a3
  rw [h1, Option.bind_eq_bind, Option.some_bind, h2, Option.some_bind, h3, Option.some_bind, h4]
  exact ⟨_, rfl⟩

theorem lastBlock_total {data : List Byte} {remain : Nat} (h : remain ≤ data.length)
    (a b c : Nat) : ∃ t, lastBlock data data.length remain a b c = some t := by
  unfold lastBlock
  by_cases hr : 1 ≤ remain ∧ remain ≤ 12
  · have hl : remain ≤ (data.drop (data.length - remain)).length := by
      rw [List.length_drop]; omega
    obtain ⟨c1, h1⟩ := tailC_total hl c
    obtain ⟨b1, h2⟩ := tailB_total hl b
    obtain ⟨a1, h3⟩ := tailA_total hl a
    simp only [if_pos hr]
    rw [h1, Option.bind_eq_bind, Option.some_bind, h2, Option.some_bind, h3]
    exact ⟨_, rfl⟩
  · simp only [if_neg hr]
    exact ⟨_, rfl⟩

theorem lastBlock_append_right (pre : List Byte) {data : List Byte} {remain : Nat}
    (h : remain ≤ data.length) (a b c : Nat) :
    lastBlock (pre ++ data) (pre ++ data).length remain a b c
      = lastBlock data data.length remain a b c := by
  unfold lastBlock
  have e : (pre ++ data).drop ((pre ++ data).length - remain)
      = data.drop (data.length - remain) := by
    rw [List.length_append, Nat.add_sub_assoc h, List.drop_append]
  simp only [e]

/-! ## `Update` one block at a time -/

theorem Update_total (data : List Byte) (a b c : Nat) : ∃ t, Update data a b c = some t := by
  unfold Update
  by_cases h0 : data.length = 0
  · simp only [if_pos h0]
    exact ⟨_, rfl⟩
  · simp only [if_neg h0]
    obtain ⟨r, a1, b1, c1, hr, hle, _, _⟩ :=
      blockLoop_total data data.length 0 data.length a b c (by omega) (by omega)
    obtain ⟨t, ht⟩ := lastBlock_total (show r ≤ data.length from hle) a1 b1 c1
    rw [hr]
    exact ⟨t, ht⟩

theorem Update_short {data : List Byte} (h1 : 1 ≤ data.length) (h12 : data.length ≤ 12)
    (a b c : Nat) : Update data a b c = lastBlock data data.length data.length a b c := by
  unfold Update
  simp only [if_neg (show ¬ data.length = 0 by omega)]
  rw [blockLoop_exit _ _ _ _ _ _ h12]
  rfl

theorem Update_block {blk rest : List Byte} (hb : blk.length = 12) (hr : rest ≠ [])
    (a b c : Nat) :
    Update (blk ++ rest) a b c
      = (blockStep blk 0 a b c).bind (fun t => Update rest t.1 t.2.1 t.2.2) := by
  have hlen : 1 ≤ rest.length := Nat.pos_of_ne_zero (fun h => hr (List.length_eq_zero.mp h))
  have hl : (blk ++ rest).length = (11 + rest.length) + 1 := by
    rw [List.length_append, hb]; omega
  unfold Update
  simp only [if_neg (show ¬ (blk ++ rest).length = 0 by omega),
    if_neg (show ¬ rest.length = 0 by omega)]
  rw [show blockLoop (blk ++ rest).length (blk ++ rest) 0 (blk ++ rest).length a b c
      = blockLoop ((11 + rest.length) + 1) (blk ++ rest) 0 ((11 + rest.length) + 1) a b c by
        rw [hl],
    blockLoop_step _ _ _ _ _ _ (by omega), blockStep_append_left (by omega)]
  cases hs : blockStep blk 0 a b c with
  | none => rfl
  | some t =>
    simp only [Option.bind_eq_bind, Option.some_bind]
    have e : blockLoop (11 + rest.length) (blk ++ rest) (0 + 12) (11 + rest.length + 1 - 12)
        t.1 t.2.1 t.2.2 = blockLoop rest.length rest 0 rest.length t.1 t.2.1 t.2.2 := by
      have e1 := blockLoop_append_right blk rest (11 + rest.length) 0
        (11 + rest.length + 1 - 12) t.1 t.2.1 t.2.2
      rw [hb] at e1
      rw [e1, show 11 + rest.length + 1 - 12 = rest.length by omega,
        Nat.add_comm 11 rest.length]
      exact blockLoop_fuel_add rest rest.length (by omega) 0 _ _ _ 11
    rw [e]
    obtain ⟨r, a1, b1, c1, hr1, hle, _, _⟩ :=
      blockLoop_total rest rest.length 0 rest.length t.1 t.2.1 t.2.2 (by omega) (by omega)
    rw [hr1]
    simp only [Option.some_bind]
    exact lastBlock_append_right blk hle a1 b1 c1

/-! ## The portable word read -/

theorem or_bytes_eq_sum {d0 d1 d2 d3 : Nat} (h0 : d0 < 256) (h1 : d1 < 256) (h2 : d2 < 256)
    (h3 : d3 < 256) :
    or32 (or32 (or32 d0 (shl32 d1 8)) (shl32 d2 16)) (shl32 d3 24)
      = d0 + 2 ^ 8 * d1 + 2 ^ 16 * d2 + 2 ^ 24 * d3 := by
  have e1 : shl32 d1 8 = 2 ^ 8 * d1 := by
    unfold shl32; rw [Nat.shiftLeft_eq]; omega
  have e2 : shl32 d2 16 = 2 ^ 16 * d2 := by
    unfold shl32; rw [Nat.shiftLeft_eq]; omega
  have e3 : shl32 d3 24 = 2 ^ 24 * d3 := by
    unfold shl32; rw [Nat.shiftLeft_eq]; omega
  have s1 : or32 d0 (2 ^ 8 * d1) = d0 + 2 ^ 8 * d1 := by
    unfold or32
    rw [Nat.lor_comm, ← Nat.mul_add_lt_is_or (show d0 < 2 ^ 8 by omega), Nat.add_comm]
  have s2 : or32 (d0 + 2 ^ 8 * d1) (2 ^ 16 * d2) = d0 + 2 ^ 8 * d1 + 2 ^ 16 * d2 := by
    unfold or32
    rw [Nat.lor_comm, ← Nat.mul_add_lt_is_or (show d0 + 2 ^ 8 * d1 < 2 ^ 16 by omega),
      Nat.add_comm]
  have s3 : or32 (d0 + 2 ^ 8 * d1 + 2 ^ 16 * d2) (2 ^ 24 * d3)
      = d0 + 2 ^ 8 * d1 + 2 ^ 16 * d2 + 2 ^ 24 * d3 := by
    unfold or32
    rw [Nat.lor_comm,
      ← Nat.mul_add_lt_is_or (show d0 + 2 ^ 8 * d1 + 2 ^ 16 * d2 < 2 ^ 24 by omega),
      Nat.add_comm]
  rw [e1, e2, e3, s1, s2, s3]

theorem byteAt_lt {data : List Byte} {i d : Nat} (h : byteAt data i = some d) : d < 256 := by
  unfold byteAt at h
  cases hx : data[i]? with
  | none => rw [hx] at h; cases h
  | some x =>
    rw [hx] at h
    cases h
    exact x.isLt

theorem or_reads_eq_sum (n : Nat) (o0 o1 o2 o3 : Option Nat)
    (h0 : ∀ d, o0 = some d → d < 256) (h1 : ∀ d, o1 = some d → d < 256)
    (h2 : ∀ d, o2 = some d → d < 256) (h3 : ∀ d, o3 = some d → d < 256) :
    (o0.bind fun d0 => o1.bind fun d1 => o2.bind fun d2 => o3.bind fun d3 =>
        some (or32 (or32 (or32 d0 (shl32 d1 8)) (shl32 d2 16)) (shl32 d3 24), n))
      = Option.map (fun w => (w, n))
          (o0.bind fun d0 => o1.bind fun d1 => o2.bind fun d2 => o3.bind fun d3 =>
            some (d0 + 2 ^ 8 * d1 + 2 ^ 16 * d2 + 2 ^ 24 * d3)) := by
  cases o0 with
  | none => rfl
  | some d0 =>
    cases o1 with
    | none => rfl
    | some d1 =>
      cases o2 with
      | none => rfl
      | some d2 =>
        cases o3 with
        | none => rfl
        | some d3 =>
          simp only [Option.some_bind, Option.map_some']
          rw [or_bytes_eq_sum (h0 _ rfl) (h1 _ rfl) (h2 _ rfl) (h3 _ rfl)]

theorem readBytes_eq_readWord (data : List Byte) (i : Nat) :
    readBytes data i = (readWord data i).map (fun w => (w, i + 4)) :=
  or_reads_eq_sum (i + 4) (byteAt data i) (byteAt data (i + 1)) (byteAt data (i + 2))
    (byteAt data (i + 3)) (fun _ h => byteAt_lt h) (fun _ h => byteAt_lt h)
    (fun _ h => byteAt_lt h) (fun _ h => byteAt_lt h)

theorem blockLoopPortable_step (fuel : Nat) (data : List Byte) (i : Nat) {remain : Nat}
    (a b c : Nat) (h : 12 < remain) :
    blockLoopPortable (fuel + 1) data i remain a b c =
      (blockStep data i a b c).bind
        (fun t => blockLoopPortable fuel data (i + 12) (remain - 12) t.1 t.2.1 t.2.2) := by
  rw [blockLoopPortable, if_pos h]
  unfold blockStep
  simp only [readBytes_eq_readWord, Option.bind_eq_bind]
  cases readWord data i with
  | none => rfl
  | some w0 =>
    simp only [Option.map_some', Option.some_bind]
    cases readWord data (i + 4) with
    | none => rfl
    | some w1 =>
      simp only [Option.map_some', Option.some_bind]
      cases readWord data (i + 8) with
      | none => rfl
      | some w2 => rfl

theorem blockLoopPortable_eq (data : List Byte) :
    ∀ (fuel i remain a b c : Nat),
      blockLoopPortable fuel data i remain a b c = blockLoop fuel data i remain a b c := by
  intro fuel
  induction fuel with
  | zero =>
    intro i remain a b c
    unfold blockLoopPortable blockLoop
    rfl
  | succ fuel ih =>
    intro i remain a b c
    by_cases h : 12 < remain
    · rw [blockLoop_step _ _ _ _ _ _ h, blockLoopPortable_step _ _ _ _ _ _ h]
      congr 1
      funext t
      exact ih _ _ _ _ _
    · rw [blockLoop, blockLoopPortable, if_neg h, if_neg h]

theorem UpdatePortable_eq (data : List Byte) (a b c : Nat) :
    UpdatePortable data a b c = Update data a b c := by
  unfold UpdatePortable Update
  simp only [blockLoopPortable_eq]

/-! ## Splitting the input at a block boundary -/

theorem absorbBlocks_append :
    ∀ (m : Nat) (X1 X2 : List Byte) (a b c : Nat), X1.length = 12 * m → X2 ≠ [] →
      ∃ t, absorbBlocks m X1 a b c = some t ∧
        Update (X1 ++ X2) a b c = Update X2 t.1 t.2.1 t.2.2 := by
  intro m
  induction m with
  | zero =>
    intro X1 X2 a b c h _
    have e : X1 = [] := List.length_eq_zero.mp (by omega)
    subst e
    exact ⟨(a, b, c), rfl, rfl⟩
  | succ m ih =>
    intro X1 X2 a b c h hne
    have hb : (X1.take 12).length = 12 := by
      rw [List.length_take]; omega
    have hd : (X1.drop 12).length = 12 * m := by
      rw [List.length_drop]; omega
    have hrest : X1.drop 12 ++ X2 ≠ [] := by
      intro e
      exact hne (List.append_eq_nil.mp e).2
    have hsplit : X1 ++ X2 = X1.take 12 ++ (X1.drop 12 ++ X2) := by
      rw [← List.append_assoc, List.take_append_drop]
    have hstep : blockStep X1 0 a b c = blockStep (X1.take 12) 0 a b c := by
      have e := @blockStep_append_left (X1.take 12) 0 (by omega) (X1.drop 12) a b c
      rw [List.take_append_drop] at e
      exact e
    obtain ⟨t1, ht1⟩ := @blockStep_isSome (X1.take 12) 0 (by omega) a b c
    obtain ⟨t, ht, hu⟩ := ih (X1.drop 12) X2 t1.1 t1.2.1 t1.2.2 hd hne
    refine ⟨t, ?_, ?_⟩
    · rw [absorbBlocks, hstep, ht1]
      exact ht
    · rw [hsplit, Update_block hb hrest, ht1]
      exact hu

/-! ## The final mix is reversible -/

theorem finalLine_word3 (k : Nat) {t : Nat × Nat × Nat} (h : Word3 t) :
    Word3 (finalLine k t) := by
  obtain ⟨x, y, z⟩ := t
  exact ⟨sub32_lt _ _, h.2.1, h.2.2⟩

theorem unfinalLine_word3 (k : Nat) {t : Nat × Nat × Nat} (h : Word3 t) :
    Word3 (unfinalLine k t) := by
  obtain ⟨x, y, z⟩ := t
  exact ⟨xor32_lt (add32_lt _ _) h.2.1, h.2.1, h.2.2⟩

theorem swap13_word3 {t : Nat × Nat × Nat} (h : Word3 t) : Word3 (swap13 t) := by
  obtain ⟨x, y, z⟩ := t
  exact ⟨h.2.2, h.2.1, h.1⟩

theorem swap13_swap13 (t : Nat × Nat × Nat) : swap13 (swap13 t) = t := rfl

theorem unfinalLine_finalLine (k : Nat) {t : Nat × Nat × Nat} (h : Word3 t) :
    unfinalLine k (finalLine k t) = t := by
  obtain ⟨x, y, z⟩ := t
  simp only [unfinalLine, finalLine, add32_sub32_cancel (xor32_lt h.1 h.2.1), xor32_cancel]

theorem finalLine_unfinalLine (k : Nat) {t : Nat × Nat × Nat} (h : Word3 t) :
    finalLine k (unfinalLine k t) = t := by
  obtain ⟨x, y, z⟩ := t
  simp only [unfinalLine, finalLine, xor32_cancel, sub32_add32_cancel h.1]

theorem final_eq_lines (t : Nat × Nat × Nat) :
    final t = swap13 (finalLine 24 (uncyc (finalLine 14 (uncyc (finalLine 4 (uncyc
      (finalLine 16 (uncyc (finalLine 25 (uncyc (finalLine 11 (uncyc
        (finalLine 14 (swap13 t)))))))))))))) := rfl

theorem unfinal_eq_lines (t : Nat × Nat × Nat) :
    unfinal t = swap13 (unfinalLine 14 (cyc (unfinalLine 11 (cyc (unfinalLine 25 (cyc
      (unfinalLine 16 (cyc (unfinalLine 4 (cyc (unfinalLine 14 (cyc
        (unfinalLine 24 (swap13 t)))))))))))))) := rfl

theorem final_word3 {t : Nat × Nat × Nat} (h : Word3 t) : Word3 (final t) := by
  rw [final_eq_lines]
  exact swap13_word3 (finalLine_word3 24 (uncyc_word3 (finalLine_word3 14 (uncyc_word3
    (finalLine_word3 4 (uncyc_word3 (finalLine_word3 16 (uncyc_word3 (finalLine_word3 25
      (uncyc_word3 (finalLine_word3 11 (uncyc_word3 (finalLine_word3 14
        (swap13_word3 h))))))))))))))

theorem unfinal_word3 {t : Nat × Nat × Nat} (h : Word3 t) : Word3 (unfinal t) := by
  rw [unfinal_eq_lines]
  exact swap13_word3 (unfinalLine_word3 14 (cyc_word3 (unfinalLine_word3 11 (cyc_word3
    (unfinalLine_word3 25 (cyc_word3 (unfinalLine_word3 16 (cyc_word3 (unfinalLine_word3 4
      (cyc_word3 (unfinalLine_word3 14 (cyc_word3 (unfinalLine_word3 24
        (swap13_word3 h))))))))))))))

theorem unfinal_final {t : Nat × Nat × Nat} (h : Word3 t) : unfinal (final t) = t := by
  have h0 := swap13_word3 h
  have h1 := uncyc_word3 (finalLine_word3 14 h0)
  have h2 := uncyc_word3 (finalLine_word3 11 h1)
  have h3 := uncyc_word3 (finalLine_word3 25 h2)
  have h4 := uncyc_word3 (finalLine_word3 16 h3)
  have h5 := uncyc_word3 (finalLine_word3 4 h4)
  have h6 := uncyc_word3 (finalLine_word3 14 h5)
  rw [final_eq_lines, unfinal_eq_lines, swap13_swap13, unfinalLine_finalLine 24 h6, cyc_uncyc,
    unfinalLine_finalLine 14 h5, cyc_uncyc, unfinalLine_finalLine 4 h4, cyc_uncyc,
    unfinalLine_finalLine 16 h3, cyc_uncyc, unfinalLine_finalLine 25 h2, cyc_uncyc,
    unfinalLine_finalLine 11 h1, cyc_uncyc, unfinalLine_finalLine 14 h0, swap13_swap13]

theorem final_unfinal {t : Nat × Nat × Nat} (h : Word3 t) : final (unfinal t) = t := by
  have h0 := swap13_word3 h
  have h1 := cyc_word3 (unfinalLine_word3 24 h0)
  have h2 := cyc_word3 (unfinalLine_word3 14 h1)
  have h3 := cyc_word3 (unfinalLine_word3 4 h2)
  have h4 := cyc_word3 (unfinalLine_word3 16 h3)
  have h5 := cyc_word3 (unfinalLine_word3 25 h4)
  have h6 := cyc_word3 (unfinalLine_word3 11 h5)
  rw [final_eq_lines, unfinal_eq_lines, swap13_swap13, finalLine_unfinalLine 14 h6, uncyc_cyc,
    finalLine_unfinalLine 11 h5, uncyc_cyc, finalLine_unfinalLine 25 h4, uncyc_cyc,
    finalLine_unfinalLine 16 h3, uncyc_cyc, finalLine_unfinalLine 4 h2, uncyc_cyc,
    finalLine_unfinalLine 14 h1, uncyc_cyc, finalLine_unfinalLine 24 h0, swap13_swap13]

/-! ## Padded bytes and words -/

theorem byteOr0_lt (data : List Byte) (i : Nat) : byteOr0 data i < 256 := by
  unfold byteOr0
  cases h : byteAt data i with
  | none => exact Nat.zero_lt_succ _
  | some d => exact byteAt_lt h

theorem byteAt_eq_byteOr0 {data : List Byte} {i : Nat} (h : i < data.length) :
    byteAt data i = some (byteOr0 data i) := by
  obtain ⟨d, hd, _⟩ := byteAt_isSome h
  unfold byteOr0
  rw [hd]
  rfl

theorem byteOr0_eq_zero {data : List Byte} {i : Nat} (h : data.length ≤ i) :
    byteOr0 data i = 0 := by
  unfold byteOr0 byteAt
  rw [List.getElem?_eq_none h]
  rfl

theorem byteOr0_eq_getElem {data : List Byte} {i : Nat} (h : i < data.length) :
    byteOr0 data i = (data[i]).val := by
  unfold byteOr0 byteAt
  rw [List.getElem?_eq_getElem h]
  rfl

theorem wordLE_lt (data : List Byte) (k : Nat) : wordLE data k < 2 ^ 32 := by
  have h0 := byteOr0_lt data k
  have h1 := byteOr0_lt data (k + 1)
  have h2 := byteOr0_lt data (k + 2)
  have h3 := byteOr0_lt data (k + 3)
  unfold wordLE
  omega

theorem readWord_eq_wordLE {data : List Byte} {k : Nat} (h : k + 3 < data.length) :
    readWord data k = some (wordLE data k) := by
  unfold readWord wordLE
  rw [byteAt_eq_byteOr0 (show k < data.length by omega),
    byteAt_eq_byteOr0 (show k + 1 < data.length by omega),
    byteAt_eq_byteOr0 (show k + 2 < data.length by omega),
    byteAt_eq_byteOr0 (show k + 3 < data.length by omega)]
  rfl

theorem shl32_zero (s : Nat) : shl32 0 s = 0 := by
  unfold shl32
  rw [Nat.zero_shiftLeft]
  rfl

theorem shl32_byte {d : Nat} (h : d < 256) :
    shl32 d 0 = d ∧ shl32 d 8 = 2 ^ 8 * d ∧ shl32 d 16 = 2 ^ 16 * d ∧
      shl32 d 24 = 2 ^ 24 * d := by
  unfold shl32
  simp only [Nat.shiftLeft_eq]
  omega

/-! ## The tail switch on a whole short input -/

theorem tailCase_length (data : List Byte) {j x : Nat} (s : Nat) (hj : 1 ≤ j)
    (hx : x < 2 ^ 32) :
    tailCase data data.length j s x = some (add32 x (shl32 (byteOr0 data (j - 1)) s)) := by
  unfold tailCase
  by_cases h : data.length ≥ j
  · rw [if_pos h, byteAt_eq_byteOr0 (show j - 1 < data.length by omega)]
    rfl
  · rw [if_neg h, byteOr0_eq_zero (show data.length ≤ j - 1 by omega), shl32_zero]
    unfold add32
    rw [Nat.add_zero, Nat.mod_eq_of_lt hx]

theorem tail_sum (x d0 d1 d2 d3 : Nat) (h0 : d0 < 256) (h1 : d1 < 256) (h2 : d2 < 256)
    (h3 : d3 < 256) :
    add32 (add32 (add32 (add32 x (shl32 d3 24)) (shl32 d2 16)) (shl32 d1 8)) (shl32 d0 0)
      = add32 x (d0 + 2 ^ 8 * d1 + 2 ^ 16 * d2 + 2 ^ 24 * d3) := by
  rw [(shl32_byte h0).1, (shl32_byte h1).2.1, (shl32_byte h2).2.2.1, (shl32_byte h3).2.2.2]
  unfold add32
  omega

theorem tailC_length (data : List Byte) {c : Nat} (hc : c < 2 ^ 32) :
    tailC data data.length c = some (add32 c (wordLE data 8)) := by
  unfold tailC
  rw [tailCase_length data 24 (by omega) hc]
  simp only [Option.bind_eq_bind, Option.some_bind]
  rw [tailCase_length data 16 (by omega) (add32_lt _ _)]
  simp only [Option.some_bind]
  rw [tailCase_length data 8 (by omega) (add32_lt _ _)]
  simp only [Option.some_bind]
  rw [tailCase_length data 0 (by omega) (add32_lt _ _)]
  simp only [Option.some_bind]
  exact congrArg some (tail_sum c _ _ _ _ (byteOr0_lt _ _) (byteOr0_lt _ _) (byteOr0_lt _ _)
    (byteOr0_lt _ _))

theorem tailB_length (data : List Byte) {b : Nat} (hb : b < 2 ^ 32) :
    tailB data data.length b = some (add32 b (wordLE data 4)) := by
  unfold tailB
  rw [tailCase_length data 24 (by omega) hb]
  simp only [Option.bind_eq_bind, Option.some_bind]
  rw [tailCase_length data 16 (by omega) (add32_lt _ _)]
  simp only [Option.some_bind]
  rw [tailCase_length data 8 (by omega) (add32_lt _ _)]
  simp only [Option.some_bind]
  rw [tailCase_length data 0 (by omega) (add32_lt _ _)]
  simp only [Option.some_bind]
  exact congrArg some (tail_sum b _ _ _ _ (byteOr0_lt _ _) (byteOr0_lt _ _) (byteOr0_lt _ _)
    (byteOr0_lt _ _))

theorem tailA_length (data : List Byte) {a : Nat} (ha : a < 2 ^ 32) :
    tailA data data.length a = some (add32 a (wordLE data 0)) := by
  unfold tailA
  rw [tailCase_length data 24 (by omega) ha]
  simp only [Option.bind_eq_bind, Option.some_bind]
  rw [tailCase_length data 16 (by omega) (add32_lt _ _)]
  simp only [Option.some_bind]
  rw [tailCase_length data 8 (by omega) (add32_lt _ _)]
  simp only [Option.some_bind]
  rw [tailCase_length data 0 (by omega) (add32_lt _ _)]
  simp only [Option.some_bind]
  exact congrArg some (tail_sum a _ _ _ _ (byteOr0_lt _ _) (byteOr0_lt _ _) (byteOr0_lt _ _)
    (byteOr0_lt _ _))

theorem Update3_short {data : List Byte} (h1 : 1 ≤ data.length) (h12 : data.length ≤ 12)
    {t : Nat × Nat × Nat} (ht : Word3 t) :
    Update3 data t = some (final (addWords data t)) := by
  obtain ⟨a, b, c⟩ := t
  unfold Update3
  rw [Update_short h1 h12]
  unfold lastBlock
  simp only [Nat.sub_self, List.drop_zero, if_pos (And.intro h1 h12)]
  rw [tailC_length data ht.2.2]
  simp only [Option.bind_eq_bind, Option.some_bind]
  rw [tailB_length data ht.2.1]
  simp only [Option.some_bind]
  rw [tailA_length data ht.1]
  rfl

/-! ## The full-block phase -/

theorem addWords_word3 (data : List Byte) (t : Nat × Nat × Nat) : Word3 (addWords data t) :=
  ⟨add32_lt _ _, add32_lt _ _, add32_lt _ _⟩

theorem subWords_word3 (data : List Byte) (t : Nat × Nat × Nat) : Word3 (subWords data t) :=
  ⟨sub32_lt _ _, sub32_lt _ _, sub32_lt _ _⟩

theorem addWords_subWords (data : List Byte) {t : Nat × Nat × Nat} (h : Word3 t) :
    addWords data (subWords data t) = t := by
  obtain ⟨a, b, c⟩ := t
  simp only [addWords, subWords, add32_sub32_cancel h.1, add32_sub32_cancel h.2.1,
    add32_sub32_cancel h.2.2]

theorem subWords_addWords (data : List Byte) {t : Nat × Nat × Nat} (h : Word3 t) :
    subWords data (addWords data t) = t := by
  obtain ⟨a, b, c⟩ := t
  simp only [addWords, subWords, sub32_add32_cancel h.1, sub32_add32_cancel h.2.1,
    sub32_add32_cancel h.2.2]

theorem blockStep_eq {data : List Byte} (h : 11 < data.length) (a b c : Nat) :
    blockStep data 0 a b c = some (mix (addWords data (a, b, c))) := by
  unfold blockStep
  rw [readWord_eq_wordLE (show 0 + 3 < data.length by omega),
    readWord_eq_wordLE (show 0 + 4 + 3 < data.length by omega),
    readWord_eq_wordLE (show 0 + 8 + 3 < data.length by omega)]
  rfl

theorem Update3_long {data : List Byte} (h : 12 < data.length) (t : Nat × Nat × Nat) :
    Update3 data t = Update3 (data.drop 12) (mix (addWords data t)) := by
  obtain ⟨a, b, c⟩ := t
  have hb : (data.take 12).length = 12 := by
    rw [List.length_take]; omega
  have hr : data.drop 12 ≠ [] := by
    intro e
    have := congrArg List.length e
    rw [List.length_drop] at this
    simp only [List.length_nil] at this
    omega
  have hstep : blockStep (data.take 12) 0 a b c = blockStep data 0 a b c := by
    have e := @blockStep_append_left (data.take 12) 0 (by omega) (data.drop 12) a b c
    rw [List.take_append_drop] at e
    exact e.symm
  have e := Update_block hb hr a b c
  rw [List.take_append_drop, hstep, blockStep_eq (by omega)] at e
  exact e

theorem blockStep_word3 {data : List Byte} {k a b c : Nat} {t : Nat × Nat × Nat}
    (h : blockStep data k a b c = some t) : Word3 t := by
  unfold blockStep at h
  cases h0 : readWord data k with
  | none => rw [h0] at h; cases h
  | some w0 =>
    cases h1 : readWord data (k + 4) with
    | none => rw [h0, h1] at h; cases h
    | some w1 =>
      cases h2 : readWord data (k + 8) with
      | none => rw [h0, h1, h2] at h; cases h
      | some w2 =>
        rw [h0, h1, h2] at h
        have hm : Word3 (mix (add32 a w0, add32 b w1, add32 c w2)) :=
          mix_word3 ⟨add32_lt _ _, add32_lt _ _, add32_lt _ _⟩
        have e : mix (add32 a w0, add32 b w1, add32 c w2) = t := Option.some.inj h
        rw [← e]
        exact hm

theorem absorbBlocks_word3 :
    ∀ (m : Nat) (data : List Byte) (a b c : Nat) (t : Nat × Nat × Nat), Word3 (a, b, c) →
      absorbBlocks m data a b c = some t → Word3 t := by
  intro m
  induction m with
  | zero =>
    intro data a b c t hw h
    rw [absorbBlocks] at h
    cases h
    exact hw
  | succ m ih =>
    intro data a b c t _ h
    rw [absorbBlocks] at h
    cases hs : blockStep data 0 a b c with
    | none => rw [hs] at h; cases h
    | some t1 =>
      rw [hs] at h
      exact ih (data.drop 12) t1.1 t1.2.1 t1.2.2 t (blockStep_word3 hs) h

theorem absorbBlocks_append_left :
    ∀ (m : Nat) (pre more : List Byte) (a b c : Nat), 12 * m ≤ pre.length →
      absorbBlocks m (pre ++ more) a b c = absorbBlocks m pre a b c := by
  intro m
  induction m with
  | zero =>
    intro pre more a b c _
    rw [absorbBlocks, absorbBlocks]
  | succ m ih =>
    intro pre more a b c h
    rw [absorbBlocks, absorbBlocks, blockStep_append_left (by omega),
      List.drop_append_of_le_length (by omega)]
    congr 1
    funext t
    exact ih _ _ _ _ _ (by rw [List.length_drop]; omega)

theorem Update_normal (data : List Byte) {a b c : Nat} (hw : Word3 (a, b, c))
    (h1 : 1 ≤ data.length) :
    ∃ t, absorbBlocks ((data.length - 1) / 12) data a b c = some t ∧ Word3 t ∧
      Update data a b c
        = some (final (addWords (data.drop (12 * ((data.length - 1) / 12))) t)) := by
  have hlen1 : (data.take (12 * ((data.length - 1) / 12))).length
      = 12 * ((data.length - 1) / 12) := by
    rw [List.length_take]; omega
  have hlen2 : (data.drop (12 * ((data.length - 1) / 12))).length
      = data.length - 12 * ((data.length - 1) / 12) := List.length_drop _ _
  have hne : data.drop (12 * ((data.length - 1) / 12)) ≠ [] := by
    intro e
    rw [e] at hlen2
    simp only [List.length_nil] at hlen2
    omega
  obtain ⟨t, ht, hu⟩ := absorbBlocks_append ((data.length - 1) / 12)
    (data.take (12 * ((data.length - 1) / 12))) (data.drop (12 * ((data.length - 1) / 12)))
    a b c hlen1 hne
  have hab := absorbBlocks_append_left ((data.length - 1) / 12)
    (data.take (12 * ((data.length - 1) / 12))) (data.drop (12 * ((data.length - 1) / 12)))
    a b c (by omega)
  rw [List.take_append_drop] at hab hu
  have hwt : Word3 t := absorbBlocks_word3 _ _ a b c t hw ht
  refine ⟨t, hab.trans ht, hwt, ?_⟩
  rw [hu]
  exact Update3_short (by omega) (by omega) hwt

/-! ## `Update` is a bijection of the state -/

theorem final_injective {s t : Nat × Nat × Nat} (hs : Word3 s) (ht : Word3 t)
    (h : final s = final t) : s = t := by
  have e := congrArg unfinal h
  rw [unfinal_final hs, unfinal_final ht] at e
  exact e

theorem mix_injective {s t : Nat × Nat × Nat} (hs : Word3 s) (ht : Word3 t)
    (h : mix s = mix t) : s = t := by
  have e := congrArg unmix h
  rw [unmix_mix hs, unmix_mix ht] at e
  exact e

theorem addWords_injective (data : List Byte) {s t : Nat × Nat × Nat} (hs : Word3 s)
    (ht : Word3 t) (h : addWords data s = addWords data t) : s = t := by
  have e := congrArg (subWords data) h
  rw [subWords_addWords data hs, subWords_addWords data ht] at e
  exact e

theorem Update3_bijective_blocks :
    ∀ (m : Nat) (data : List Byte), 12 * m < data.length → data.length ≤ 12 * m + 12 →
      (∀ s, Word3 s → ∃ u, Update3 data s = some u ∧ Word3 u) ∧
      (∀ s t, Word3 s → Word3 t → Update3 data s = Update3 data t → s = t) ∧
      (∀ u, Word3 u → ∃ s, Word3 s ∧ Update3 data s = some u) := by
  intro m
  induction m with
  | zero =>
    intro data h1 h12
    refine ⟨?_, ?_, ?_⟩
    · intro s hs
      exact ⟨_, Update3_short (by omega) (by omega) hs, final_word3 (addWords_word3 data s)⟩
    · intro s t hs ht h
      rw [Update3_short (by omega) (by omega) hs, Update3_short (by omega) (by omega) ht] at h
      exact addWords_injective data hs ht
        (final_injective (addWords_word3 data s) (addWords_word3 data t) (Option.some.inj h))
    · intro u hu
      refine ⟨subWords data (unfinal u), subWords_word3 _ _, ?_⟩
      rw [Update3_short (by omega) (by omega) (subWords_word3 _ _),
        addWords_subWords data (unfinal_word3 hu), final_unfinal hu]
  | succ m ih =>
    intro data h1 h12
    have hd := ih (data.drop 12) (by rw [List.length_drop]; omega)
      (by rw [List.length_drop]; omega)
    refine ⟨?_, ?_, ?_⟩
    · intro s _
      rw [Update3_long (show 12 < data.length by omega) s]
      exact hd.1 _ (mix_word3 (addWords_word3 data s))
    · intro s t hs ht h
      rw [Update3_long (show 12 < data.length by omega) s,
        Update3_long (show 12 < data.length by omega) t] at h
      exact addWords_injective data hs ht
        (mix_injective (addWords_word3 data s) (addWords_word3 data t)
          (hd.2.1 _ _ (mix_word3 (addWords_word3 data s)) (mix_word3 (addWords_word3 data t)) h))
    · intro u hu
      obtain ⟨s1, hs1, hu1⟩ := hd.2.2 u hu
      refine ⟨subWords data (unmix s1), subWords_word3 _ _, ?_⟩
      rw [Update3_long (show 12 < data.length by omega) _,
        addWords_subWords data (unmix_word3 hs1), mix_unmix hs1]
      exact hu1

theorem Update3_bijective (data : List Byte) :
    (∀ s, Word3 s → ∃ u, Update3 data s = some u ∧ Word3 u) ∧
    (∀ s t, Word3 s → Word3 t → Update3 data s = Update3 data t → s = t) ∧
    (∀ u, Word3 u → ∃ s, Word3 s ∧ Update3 data s = some u) := by
  by_cases h0 : data.length = 0
  · have e : data = [] := List.length_eq_zero.mp h0
    subst e
    refine ⟨fun s hs => ⟨s, rfl, hs⟩, fun s t _ _ h => Option.some.inj h,
      fun u hu => ⟨u, hu, rfl⟩⟩
  · exact Update3_bijective_blocks ((data.length - 1) / 12) data (by omega) (by omega)

/-! ## A trailing zero byte inside the last block -/

theorem byteOr0_append_zero (data : List Byte) (i : Nat) :
    byteOr0 (data ++ [0]) i = byteOr0 data i := by
  by_cases h : i < data.length
  · unfold byteOr0
    rw [byteAt_append_left h]
  · rw [byteOr0_eq_zero (show data.length ≤ i by omega)]
    by_cases he : i = data.length
    · subst he
      have e := byteAt_append_right data [0] 0
      rw [Nat.add_zero] at e
      unfold byteOr0
      rw [e]
      rfl
    · exact byteOr0_eq_zero (by rw [List.length_append, List.length_singleton]; omega)

theorem addWords_append_zero (data : List Byte) (t : Nat × Nat × Nat) :
    addWords (data ++ [0]) t = addWords data t := by
  unfold addWords wordLE
  simp only [byteOr0_append_zero]

theorem Update_append_zero {X : List Byte} (h : X.length % 12 ≠ 0) {a b c : Nat}
    (hw : Word3 (a, b, c)) : Update (X ++ [0]) a b c = Update X a b c := by
  have hlen : (X ++ [0]).length = X.length + 1 := by
    rw [List.length_append, List.length_singleton]
  obtain ⟨t1, hA1, _, hU1⟩ := Update_normal X hw (by omega)
  obtain ⟨t2, hA2, _, hU2⟩ := Update_normal (X ++ [0]) hw (by omega)
  have hm : ((X ++ [0]).length - 1) / 12 = (X.length - 1) / 12 := by
    rw [hlen]; omega
  rw [hm] at hA2 hU2
  rw [absorbBlocks_append_left _ X [0] a b c (by omega), hA1] at hA2
  have e : t1 = t2 := Option.some.inj hA2
  subst e
  rw [List.drop_append_of_le_length (by omega), addWords_append_zero] at hU2
  rw [hU1, hU2]

/-! ## Two inputs of one block -/

theorem wordLE_injective {X Y : List Byte} {k : Nat} (h : wordLE X k = wordLE Y k) :
    byteOr0 X k = byteOr0 Y k ∧ byteOr0 X (k + 1) = byteOr0 Y (k + 1) ∧
      byteOr0 X (k + 2) = byteOr0 Y (k + 2) ∧ byteOr0 X (k + 3) = byteOr0 Y (k + 3) := by
  have x0 := byteOr0_lt X k
  have x1 := byteOr0_lt X (k + 1)
  have x2 := byteOr0_lt X (k + 2)
  have x3 := byteOr0_lt X (k + 3)
  have y0 := byteOr0_lt Y k
  have y1 := byteOr0_lt Y (k + 1)
  have y2 := byteOr0_lt Y (k + 2)
  have y3 := byteOr0_lt Y (k + 3)
  unfold wordLE at h
  omega

theorem add32_left_injective {a x y : Nat} (hx : x < 2 ^ 32) (hy : y < 2 ^ 32)
    (h : add32 a x = add32 a y) : x = y := by
  unfold add32 at h
  omega

theorem addWords_data_injective {X Y : List Byte} {t : Nat × Nat × Nat}
    (h : addWords X t = addWords Y t) : ∀ i, i < 12 → byteOr0 X i = byteOr0 Y i := by
  unfold addWords at h
  have h0 := wordLE_injective (add32_left_injective (wordLE_lt X 0) (wordLE_lt Y 0)
    (congrArg (fun p => p.1) h))
  have h4 := wordLE_injective (add32_left_injective (wordLE_lt X 4) (wordLE_lt Y 4)
    (congrArg (fun p => p.2.1) h))
  have h8 := wordLE_injective (add32_left_injective (wordLE_lt X 8) (wordLE_lt Y 8)
    (congrArg (fun p => p.2.2) h))
  intro i hi
  interval_cases i
  · exact h0.1
  · exact h0.2.1
  · exact h0.2.2.1
  · exact h0.2.2.2
  · exact h4.1
  · exact h4.2.1
  · exact h4.2.2.1
  · exact h4.2.2.2
  · exact h8.1
  · exact h8.2.1
  · exact h8.2.2.1
  · exact h8.2.2.2

theorem Update_short_injective {X Y : List Byte} {a b c : Nat} (hw : Word3 (a, b, c))
    (hlen : X.length = Y.length) (h1 : 1 ≤ X.length) (h12 : X.length ≤ 12)
    (h : Update X a b c = Update Y a b c) : X = Y := by
  have hX := Update3_short h1 h12 hw
  have hY := @Update3_short Y (by omega) (by omega) (a, b, c) hw
  unfold Update3 at hX hY
  rw [hX, hY] at h
  have hb := addWords_data_injective
    (final_injective (addWords_word3 X _) (addWords_word3 Y _) (Option.some.inj h))
  apply List.ext_getElem hlen
  intro i hi1 hi2
  have e := hb i (by omega)
  rw [byteOr0_eq_getElem hi1, byteOr0_eq_getElem hi2] at e
  exact Fin.ext e

/-! ## Known vectors -/

/-- C1: from `a = b = c = 0xCafeBaba`, the third component returned by `Update`
on the ASCII bytes of each string of `Test1` is the expected word. -/
theorem update_known_vectors :
    test1 "" = some 0xcafebaba ∧
    test1 "a" = some 0x704dedac ∧
    test1 "ab" = some 0x48c80e69 ∧
    test1 "abc" = some 0xd4383038 ∧
    test1 "abcd" = some 0xab6eb87c ∧
    test1 "abcde" = some 0x623ed751 ∧
    test1 "abcdef" = some 0x714cb538 ∧
    test1 "abcdefg" = some 0xb2f6ab88 ∧
    test1 "abcdefgh" = some 0x12a39337 ∧
    test1 "abcdefghi" = some 0x7e6e2145 ∧
    test1 "abcdefghij" = some 0xc640b76a ∧
    test1 "0123456789a" = some 0x13e5957a ∧
    test1 "0123456789ab" = some 0x53238445 ∧
    test1 "0123456789abc" = some 0x0dc6fdc5 ∧
    test1 "Premature optimization is the root of all evil - Donald Knuth"
      = some 0xb6b3320c := by
  refine ⟨?_, ?_, ?_, ?_, ?_, ?_, ?_, ?_, ?_, ?_, ?_, ?_, ?_, ?_, ?_⟩ <;> decide!

/-- C2: `Update` on the empty byte sequence returns `(a, b, c)` unchanged. -/
theorem update_empty (a b c : Nat) : Update [] a b c = some (a, b, c) := rfl

/-! ## Incrementality -/

/-- C3, as stated, fails: the 13 bytes of `0123456789abc` split after 12 bytes
into two non-empty pieces give, from `a = b = c = 0xCafeBaba`, a triple that
differs from the one of the single call. -/
theorem chain_at_block_boundary_differs :
    (bytes "0123456789ab").length = 12 ∧
    bytes "0123456789ab" ++ bytes "c" = bytes "0123456789abc" ∧
    updateChain [bytes "0123456789ab", bytes "c"] 0xCafeBaba 0xCafeBaba 0xCafeBaba
      = some (457160102, 465490049, 3987260145) ∧
    Update (bytes "0123456789abc") 0xCafeBaba 0xCafeBaba 0xCafeBaba
      = some (3637921517, 568333397, 231144901) ∧
    updateChain [bytes "0123456789ab", bytes "c"] 0xCafeBaba 0xCafeBaba 0xCafeBaba
      ≠ Update (bytes "0123456789abc") 0xCafeBaba 0xCafeBaba 0xCafeBaba := by
  refine ⟨?_, ?_, ?_, ?_, ?_⟩ <;> decide!

/-- C3, amended: when `X1` has a multiple of 12 bytes and `X2` is not empty, the
single call `Update (X1 ++ X2)` equals `Update X2` from the triple that the loop
body alone (three word additions, then `mix`) produces over the blocks of `X1`,
with no final mix in between. -/
theorem update_append_blocks (X1 X2 : List Byte) (a b c : Nat) (h12 : X1.length % 12 = 0)
    (hne : X2 ≠ []) :
    ∃ t, absorbBlocks (X1.length / 12) X1 a b c = some t ∧
      Update (X1 ++ X2) a b c = Update X2 t.1 t.2.1 t.2.2 :=
  absorbBlocks_append (X1.length / 12) X1 X2 a b c (by omega) hne

/-- C3, amended, at the 12 bytes of `0123456789ab` followed by `c`. -/
theorem update_append_blocks_witness :
    ([48, 49, 50, 51, 52, 53, 54, 55, 56, 57, 97, 98] : List Byte).length % 12 = 0 ∧
    ([99] : List Byte) ≠ [] ∧
    ∃ t, absorbBlocks (([48, 49, 50, 51, 52, 53, 54, 55, 56, 57, 97, 98] : List Byte).length / 12)
          [48, 49, 50, 51, 52, 53, 54, 55, 56, 57, 97, 98] 0xCafeBaba 0xCafeBaba 0xCafeBaba
          = some t ∧
      Update ([48, 49, 50, 51, 52, 53, 54, 55, 56, 57, 97, 98] ++ [99])
          0xCafeBaba 0xCafeBaba 0xCafeBaba = Update [99] t.1 t.2.1 t.2.2 :=
  ⟨by decide, by decide,
    update_append_blocks [48, 49, 50, 51, 52, 53, 54, 55, 56, 57, 97, 98] [99]
      0xCafeBaba 0xCafeBaba 0xCafeBaba (by decide) (by decide)⟩

/-! ## Streaming and one-shot functions -/

/-- C4: after one `Write(data)` on `NewBJH(s0, s1)`, which succeeds and returns
`(len(data), nil)`, `Sum32()` is the value of `CheckSum1(data, s0, s1)` and the
first component of `CheckSum2(data, s0, s1)`; and `New()` is `NewBJH(0, 0)`. -/
theorem streaming_eq_one_shot (data : List Byte) (s0 s1 : Nat) :
    (∃ d, (NewBJH s0 s1).Write data = some (d, data.length, none) ∧
      CheckSum1 data s0 s1 = some d.Sum32 ∧
      (CheckSum2 data s0 s1).map Prod.fst = some d.Sum32) ∧
    New = NewBJH 0 0 := by
  refine ⟨?_, rfl⟩
  obtain ⟨t, ht⟩ := Update_total data (add32 0xdeadbeef s0) (add32 0xdeadbeef s0)
    (add32 (add32 0xdeadbeef s0) s1)
  refine ⟨{ initval0 := s0, initval1 := s1, a := t.1, b := t.2.1, c := t.2.2 }, ?_, ?_, ?_⟩
  · show ((Update data (add32 0xdeadbeef s0) (add32 0xdeadbeef s0)
        (add32 (add32 0xdeadbeef s0) s1)).bind _) = _
    rw [ht]
    rfl
  · show ((Update data (add32 0xdeadbeef s0) (add32 0xdeadbeef s0)
        (add32 (add32 0xdeadbeef s0) s1)).bind _) = _
    rw [ht]
    rfl
  · show Option.map Prod.fst ((Update data (add32 0xdeadbeef s0) (add32 0xdeadbeef s0)
        (add32 (add32 0xdeadbeef s0) s1)).bind _) = _
    rw [ht]
    rfl

/-- C5: the dual-checksum vectors of `TestChecksum2` on
`Four score and seven years ago`. -/
theorem checksum2_known_vectors :
    CheckSum2 (bytes "Four score and seven years ago") 30 0
      = some (0x17770551, 0xce7226e6) ∧
    CheckSum2 (bytes "Four score and seven years ago") 30 1
      = some (0xe3607cae, 0xbd371de4) ∧
    CheckSum2 (bytes "Four score and seven years ago") 31 0
      = some (0xcd628161, 0x6cbea4b3) := by
  refine ⟨?_, ?_, ?_⟩ <;> decide!

/-- C6: on the empty input `CheckSum2` returns the seeded
`(c, b) = ((0xdeadbeef + s0 + s1) mod 2^32, (0xdeadbeef + s0) mod 2^32)`, with the
three vectors of `TestChecksum2`. -/
theorem checksum2_empty (s0 s1 : Nat) :
    CheckSum2 [] s0 s1 = some ((0xdeadbeef + s0 + s1) % 2 ^ 32, (0xdeadbeef + s0) % 2 ^ 32) ∧
    CheckSum2 [] 0 0 = some (0xdeadbeef, 0xdeadbeef) ∧
    CheckSum2 [] 0 0xdeadbeef = some (0xbd5b7dde, 0xdeadbeef) ∧
    CheckSum2 [] 0xdeadbeef 0xdeadbeef = some (0x9c093ccd, 0xbd5b7dde) := by
  refine ⟨?_, by decide, by decide, by decide⟩
  show some (add32 (add32 0xdeadbeef s0) s1, add32 0xdeadbeef s0) = _
  unfold add32
  rw [Nat.mod_add_mod]

/-- C7: `CheckSum(data)` equals `CheckSum1(data, 0, 0)`. -/
theorem checksum_eq_checksum1 (data : List Byte) : CheckSum data = CheckSum1 data 0 0 := rfl

/-! ## The two versions of `Update` -/

/-- C8: the portable byte-at-a-time `Update` and the word-at-a-time `Update`,
its 4-byte reads taken little-endian, return the same result on every input. -/
theorem portable_eq_fast (data : List Byte) (a b c : Nat) :
    UpdatePortable data a b c = Update data a b c :=
  UpdatePortable_eq data a b c

/-- C9: no read of `Update` falls outside `data`: with every read checked,
`Update` returns a triple on every input. -/
theorem update_reads_in_bounds (data : List Byte) (a b c : Nat) :
    ∃ t, Update data a b c = some t :=
  Update_total data a b c

/-- C10: on triples of 32-bit words `mix` is a bijection with inverse `unmix`:
both map words to words and each undoes the other. -/
theorem mix_reversible (t : Nat × Nat × Nat) (h : Word3 t) :
    Word3 (mix t) ∧ Word3 (unmix t) ∧ unmix (mix t) = t ∧ mix (unmix t) = t :=
  ⟨mix_word3 h, unmix_word3 h, unmix_mix h, mix_unmix h⟩

/-- C10 at the triple `(1, 2, 3)`. -/
theorem mix_reversible_witness :
    Word3 (1, 2, 3) ∧
    (Word3 (mix (1, 2, 3)) ∧ Word3 (unmix (1, 2, 3)) ∧ unmix (mix (1, 2, 3)) = (1, 2, 3) ∧
      mix (unmix (1, 2, 3)) = (1, 2, 3)) :=
  ⟨by decide, mix_reversible (1, 2, 3) (by decide)⟩

/-! ## The digest methods -/

/-- C11: `Sum(p)` is `p` followed by `Size() = 4` bytes, the bytes `c>>24`,
`c>>16`, `c>>8`, `c` of `d.Sum32() = d.c` taken mod 256, whose big-endian value
is `Sum32()` again; and `BlockSize() = 12`. -/
theorem sum_big_endian (d : digest) (p : List Byte) (hc : d.c < 2 ^ 32) :
    d.Sum p = p ++ [byte (shr32 d.c 24), byte (shr32 d.c 16), byte (shr32 d.c 8), byte d.c] ∧
    ((d.Sum p).drop p.length).map (fun x => x.val)
      = [d.c / 2 ^ 24 % 256, d.c / 2 ^ 16 % 256, d.c / 2 ^ 8 % 256, d.c % 256] ∧
    (d.Sum p).length = p.length + d.Size ∧ d.Size = 4 ∧
    decodeBE ((d.Sum p).drop p.length) = d.Sum32 ∧ d.Sum32 = d.c ∧ d.BlockSize = 12 := by
  have e : d.Sum p
      = p ++ [byte (shr32 d.c 24), byte (shr32 d.c 16), byte (shr32 d.c 8), byte d.c] := by
    unfold digest.Sum digest.Sum32
    simp only [List.append_assoc, List.singleton_append, List.cons_append, List.nil_append]
  have hd : (d.Sum p).drop p.length
      = [byte (shr32 d.c 24), byte (shr32 d.c 16), byte (shr32 d.c 8), byte d.c] := by
    rw [e, List.drop_left]
  have hv : ∀ x, (byte x).val = x % 256 := fun _ => rfl
  refine ⟨e, ?_, ?_, rfl, ?_, rfl, rfl⟩
  · rw [hd]
    simp only [List.map_cons, List.map_nil, hv, shr32, Nat.shiftRight_eq_div_pow]
  · rw [e, List.length_append]
    rfl
  · rw [hd]
    unfold decodeBE digest.Sum32
    simp only [List.foldl_cons, List.foldl_nil, hv, shr32, Nat.shiftRight_eq_div_pow]
    omega

/-- C11 at the digest `New()` and `p = [1, 2]`. -/
theorem sum_big_endian_witness :
    New.c < 2 ^ 32 ∧
    (New.Sum [1, 2]
        = [1, 2] ++ [byte (shr32 New.c 24), byte (shr32 New.c 16), byte (shr32 New.c 8),
            byte New.c] ∧
      ((New.Sum [1, 2]).drop ([1, 2] : List Byte).length).map (fun x => x.val)
        = [New.c / 2 ^ 24 % 256, New.c / 2 ^ 16 % 256, New.c / 2 ^ 8 % 256, New.c % 256] ∧
      (New.Sum [1, 2]).length = ([1, 2] : List Byte).length + New.Size ∧ New.Size = 4 ∧
      decodeBE ((New.Sum [1, 2]).drop ([1, 2] : List Byte).length) = New.Sum32 ∧
      New.Sum32 = New.c ∧ New.BlockSize = 12) :=
  ⟨by decide, sum_big_endian New [1, 2] (by decide)⟩

/-- C12: `Reset` sets `a = b = (0xdeadbeef + initval0) mod 2^32` and
`c = (a + initval1) mod 2^32` and keeps the two seeds, whatever `a`, `b`, `c`
held; so it is idempotent and gives the state of `NewBJH(initval0, initval1)`. -/
theorem reset_seeds (d : digest) :
    d.Reset = { initval0 := d.initval0, initval1 := d.initval1,
                a := (0xdeadbeef + d.initval0) % 2 ^ 32,
                b := (0xdeadbeef + d.initval0) % 2 ^ 32,
                c := ((0xdeadbeef + d.initval0) % 2 ^ 32 + d.initval1) % 2 ^ 32 } ∧
    d.Reset.Reset = d.Reset ∧
    d.Reset = NewBJH d.initval0 d.initval1 :=
  ⟨rfl, rfl, rfl⟩

/-- C13: `Write(data)` never fails: it returns `(len(data), nil)`, replaces
`(a, b, c)` by `Update(data, a, b, c)` and keeps the two seeds; after
`Write(X1)` then `Write(X2)` the triple is `Update(X2, Update(X1, a, b, c))`. -/
theorem write_never_fails (d : digest) (X1 X2 : List Byte) :
    ∃ t1 t2, Update X1 d.a d.b d.c = some t1 ∧
      d.Write X1 = some ({ initval0 := d.initval0, initval1 := d.initval1,
                           a := t1.1, b := t1.2.1, c := t1.2.2 }, X1.length, none) ∧
      Update X2 t1.1 t1.2.1 t1.2.2 = some t2 ∧
      (d.Write X1).bind (fun r => r.1.Write X2)
        = some ({ initval0 := d.initval0, initval1 := d.initval1,
                  a := t2.1, b := t2.2.1, c := t2.2.2 }, X2.length, none) := by
  obtain ⟨t1, h1⟩ := Update_total X1 d.a d.b d.c
  obtain ⟨t2, h2⟩ := Update_total X2 t1.1 t1.2.1 t1.2.2
  have w1 : d.Write X1
      = some (digest.mk d.initval0 d.initval1 t1.1 t1.2.1 t1.2.2, X1.length, none) := by
    show (Update X1 d.a d.b d.c).bind _ = _
    rw [h1]
    rfl
  refine ⟨t1, t2, h1, w1, h2, ?_⟩
  rw [w1, Option.some_bind]
  show (Update X2 t1.1 t1.2.1 t1.2.2).bind _ = _
  rw [h2]
  rfl

/-! ## The two phases of `Update` -/

/-- C14: on 1 to 12 bytes, from 32-bit words `a`, `b`, `c`, `Update` returns
`final (a + w0, b + w1, c + w2)`, the `w` being the little-endian words of bytes
0-3, 4-7, 8-11 of `data` padded with zero bytes; no block mix is applied, also
on exactly 12 bytes. -/
theorem tail_phase (data : List Byte) (a b c : Nat) (hw : Word3 (a, b, c))
    (h1 : 1 ≤ data.length) (h12 : data.length ≤ 12) :
    Update data a b c
      = some (final (add32 a (wordLE data 0), add32 b (wordLE data 4),
          add32 c (wordLE data 8))) :=
  Update3_short h1 h12 hw

/-- C14 at the 12 bytes `1, ..., 12` from `(1, 2, 3)`. -/
theorem tail_phase_witness :
    Word3 (1, 2, 3) ∧ 1 ≤ ([1, 2, 3, 4, 5, 6, 7, 8, 9, 10, 11, 12] : List Byte).length ∧
    ([1, 2, 3, 4, 5, 6, 7, 8, 9, 10, 11, 12] : List Byte).length ≤ 12 ∧
    Update [1, 2, 3, 4, 5, 6, 7, 8, 9, 10, 11, 12] 1 2 3
      = some (final (add32 1 (wordLE [1, 2, 3, 4, 5, 6, 7, 8, 9, 10, 11, 12] 0),
          add32 2 (wordLE [1, 2, 3, 4, 5, 6, 7, 8, 9, 10, 11, 12] 4),
          add32 3 (wordLE [1, 2, 3, 4, 5, 6, 7, 8, 9, 10, 11, 12] 8))) :=
  ⟨by decide, by decide, by decide,
    tail_phase [1, 2, 3, 4, 5, 6, 7, 8, 9, 10, 11, 12] 1 2 3 (by decide) (by decide)
      (by decide)⟩

/-- C15: on more than 12 bytes `Update` is `Update` of `data[12:]` from
`mix (a + w0, b + w1, c + w2)`, the `w` being the little-endian words of the
first 12 bytes; so from 32-bit words an input of `n ≥ 1` bytes goes through
`(n - 1) / 12` loop bodies, one block mix each, and then one final mix over the
remaining 1 to 12 bytes. -/
theorem full_block_phase (data : List Byte) (a b c : Nat) :
    (12 < data.length →
      Update data a b c
        = Update3 (data.drop 12) (mix (add32 a (wordLE data 0), add32 b (wordLE data 4),
            add32 c (wordLE data 8)))) ∧
    (Word3 (a, b, c) → 1 ≤ data.length →
      ∃ t, absorbBlocks ((data.length - 1) / 12) data a b c = some t ∧
        1 ≤ (data.drop (12 * ((data.length - 1) / 12))).length ∧
        (data.drop (12 * ((data.length - 1) / 12))).length ≤ 12 ∧
        Update data a b c
          = some (final (addWords (data.drop (12 * ((data.length - 1) / 12))) t))) := by
  refine ⟨fun h => Update3_long h (a, b, c), fun hw h1 => ?_⟩
  obtain ⟨t, ht, _, hu⟩ := Update_normal data hw h1
  refine ⟨t, ht, ?_, ?_, hu⟩
  · rw [List.length_drop]; omega
  · rw [List.length_drop]; omega

/-- C15 at the 13 bytes `1, ..., 13` from `(1, 2, 3)`. -/
theorem full_block_phase_witness :
    12 < ([1, 2, 3, 4, 5, 6, 7, 8, 9, 10, 11, 12, 13] : List Byte).length ∧
    Update [1, 2, 3, 4, 5, 6, 7, 8, 9, 10, 11, 12, 13] 1 2 3
      = Update3 (([1, 2, 3, 4, 5, 6, 7, 8, 9, 10, 11, 12, 13] : List Byte).drop 12)
          (mix (add32 1 (wordLE [1, 2, 3, 4, 5, 6, 7, 8, 9, 10, 11, 12, 13] 0),
            add32 2 (wordLE [1, 2, 3, 4, 5, 6, 7, 8, 9, 10, 11, 12, 13] 4),
            add32 3 (wordLE [1, 2, 3, 4, 5, 6, 7, 8, 9, 10, 11, 12, 13] 8))) ∧
    Word3 (1, 2, 3) ∧ 1 ≤ ([1, 2, 3, 4, 5, 6, 7, 8, 9, 10, 11, 12, 13] : List Byte).length ∧
    ∃ t, absorbBlocks
          ((([1, 2, 3, 4, 5, 6, 7, 8, 9, 10, 11, 12, 13] : List Byte).length - 1) / 12)
          [1, 2, 3, 4, 5, 6, 7, 8, 9, 10, 11, 12, 13] 1 2 3 = some t ∧
      1 ≤ (([1, 2, 3, 4, 5, 6, 7, 8, 9, 10, 11, 12, 13] : List Byte).drop
            (12 * ((([1, 2, 3, 4, 5, 6, 7, 8, 9, 10, 11, 12, 13] : List Byte).length - 1)
              / 12))).length ∧
      (([1, 2, 3, 4, 5, 6, 7, 8, 9, 10, 11, 12, 13] : List Byte).drop
            (12 * ((([1, 2, 3, 4, 5, 6, 7, 8, 9, 10, 11, 12, 13] : List Byte).length - 1)
              / 12))).length ≤ 12 ∧
      Update [1, 2, 3, 4, 5, 6, 7, 8, 9, 10, 11, 12, 13] 1 2 3
        = some (final (addWords
            (([1, 2, 3, 4, 5, 6, 7, 8, 9, 10, 11, 12, 13] : List Byte).drop
              (12 * ((([1, 2, 3, 4, 5, 6, 7, 8, 9, 10, 11, 12, 13] : List Byte).length - 1)
                / 12))) t)) :=
  ⟨by decide,
    (full_block_phase [1, 2, 3, 4, 5, 6, 7, 8, 9, 10, 11, 12, 13] 1 2 3).1 (by decide),
    by decide, by decide,
    (full_block_phase [1, 2, 3, 4, 5, 6, 7, 8, 9, 10, 11, 12, 13] 1 2 3).2 (by decide)
      (by decide)⟩

/-- C16: `Update` on `a` and then on `b`, from `a = b = c = 0xCafeBaba`, differs
from `Update` on `ab`; and two `Write`s on `New()` give another `Sum32` than one
`Write` of the concatenation. -/
theorem refinalization_breaks_incrementality :
    bytes "a" ≠ [] ∧ bytes "b" ≠ [] ∧ bytes "a" ++ bytes "b" = bytes "ab" ∧
    updateChain [bytes "a", bytes "b"] 0xCafeBaba 0xCafeBaba 0xCafeBaba
      = some (770779827, 3341942364, 3834248751) ∧
    Update (bytes "a" ++ bytes "b") 0xCafeBaba 0xCafeBaba 0xCafeBaba
      = some (2752398695, 238832309, 1221070441) ∧
    (∃ (a b c : Nat) (X1 X2 : List Byte), X1 ≠ [] ∧ X2 ≠ [] ∧
      (Update X1 a b c).bind (Update3 X2) ≠ Update (X1 ++ X2) a b c) ∧
    ((New.Write (bytes "a")).bind (fun r => r.1.Write (bytes "b"))).map (fun r => r.1.Sum32)
      = some 1516590111 ∧
    (New.Write (bytes "a" ++ bytes "b")).map (fun r => r.1.Sum32) = some 4187565006 := by
  refine ⟨by decide!, by decide!, by decide!, by decide!, by decide!, ?_, by decide!,
    by decide!⟩
  exact ⟨0xCafeBaba, 0xCafeBaba, 0xCafeBaba, [97], [98], by decide, by decide, by decide!⟩

/-! ## Consequences -/

/-- C17: when the length of `X` is not a multiple of 12, a zero byte appended
to `X` changes nothing: `Update` from 32-bit words, `CheckSum`, `CheckSum1` and
`CheckSum2` return the same on `X ++ [0]` and on `X`. -/
theorem trailing_zero_invisible (X : List Byte) (a b c : Nat) (hw : Word3 (a, b, c))
    (h : X.length % 12 ≠ 0) :
    Update (X ++ [0]) a b c = Update X a b c ∧
    CheckSum (X ++ [0]) = CheckSum X ∧
    (∀ s0 s1, CheckSum1 (X ++ [0]) s0 s1 = CheckSum1 X s0 s1) ∧
    (∀ s0 s1, CheckSum2 (X ++ [0]) s0 s1 = CheckSum2 X s0 s1) := by
  refine ⟨Update_append_zero h hw, ?_, ?_, ?_⟩
  · unfold CheckSum
    rw [Update_append_zero h (show Word3 (0xdeadbeef, 0xdeadbeef, 0xdeadbeef) by decide)]
  · intro s0 s1
    unfold CheckSum1
    simp only []
    rw [Update_append_zero h
      (show Word3 (add32 0xdeadbeef s0, add32 0xdeadbeef s0, add32 (add32 0xdeadbeef s0) s1)
        from ⟨add32_lt _ _, add32_lt _ _, add32_lt _ _⟩)]
  · intro s0 s1
    unfold CheckSum2
    simp only []
    rw [Update_append_zero h
      (show Word3 (add32 0xdeadbeef s0, add32 0xdeadbeef s0, add32 (add32 0xdeadbeef s0) s1)
        from ⟨add32_lt _ _, add32_lt _ _, add32_lt _ _⟩)]

/-- C17 at `X = [97]`, the byte of `a`, from `a = b = c = 0xCafeBaba`. -/
theorem trailing_zero_invisible_witness :
    Word3 (0xCafeBaba, 0xCafeBaba, 0xCafeBaba) ∧ ([97] : List Byte).length % 12 ≠ 0 ∧
    (Update ([97] ++ [0]) 0xCafeBaba 0xCafeBaba 0xCafeBaba
        = Update [97] 0xCafeBaba 0xCafeBaba 0xCafeBaba ∧
      CheckSum ([97] ++ [0]) = CheckSum [97] ∧
      (∀ s0 s1, CheckSum1 ([97] ++ [0]) s0 s1 = CheckSum1 [97] s0 s1) ∧
      (∀ s0 s1, CheckSum2 ([97] ++ [0]) s0 s1 = CheckSum2 [97] s0 s1)) :=
  ⟨by decide, by decide,
    trailing_zero_invisible [97] 0xCafeBaba 0xCafeBaba 0xCafeBaba (by decide) (by decide)⟩

/-- C18: for every `data`, `Update` from a triple is a bijection of the triples
of 32-bit words: it maps each to one, it is injective, and every triple is
reached. -/
theorem update_state_bijection (data : List Byte) :
    (∀ s, Word3 s → ∃ u, Update3 data s = some u ∧ Word3 u) ∧
    (∀ s t, Word3 s → Word3 t → Update3 data s = Update3 data t → s = t) ∧
    (∀ u, Word3 u → ∃ s, Word3 s ∧ Update3 data s = some u) :=
  Update3_bijective data

/-- C18 at `data = [97]` and the triple `(1, 2, 3)`. -/
theorem update_state_bijection_witness :
    Word3 (1, 2, 3) ∧
    (∃ u, Update3 [97] (1, 2, 3) = some u ∧ Word3 u) ∧
    (Update3 [97] (1, 2, 3) = Update3 [97] (1, 2, 3) ∧ ((1, 2, 3) : Nat × Nat × Nat) = (1, 2, 3)) ∧
    (∃ s, Word3 s ∧ Update3 [97] s = some (1, 2, 3)) :=
  ⟨by decide, (update_state_bijection [97]).1 (1, 2, 3) (by decide),
    ⟨rfl, (update_state_bijection [97]).2.1 (1, 2, 3) (1, 2, 3) (by decide) (by decide) rfl⟩,
    (update_state_bijection [97]).2.2 (1, 2, 3) (by decide)⟩

/-- C19: from 32-bit words, two inputs of the same length between 1 and 12
that give the same triple are the same input. -/
theorem no_collision_within_block (X Y : List Byte) (a b c : Nat) (hw : Word3 (a, b, c))
    (hlen : X.length = Y.length) (h1 : 1 ≤ X.length) (h12 : X.length ≤ 12)
    (h : Update X a b c = Update Y a b c) : X = Y :=
  Update_short_injective hw hlen h1 h12 h

/-- C19 at `X = Y = [97]` from `(1, 2, 3)`. -/
theorem no_collision_within_block_witness :
    Word3 (1, 2, 3) ∧ ([97] : List Byte).length = ([97] : List Byte).length ∧
    1 ≤ ([97] : List Byte).length ∧ ([97] : List Byte).length ≤ 12 ∧
    Update [97] 1 2 3 = Update [97] 1 2 3 ∧ ([97] : List Byte) = [97] :=
  ⟨by decide, rfl, by decide, by decide, rfl,
    no_collision_within_block [97] [97] 1 2 3 (by decide) rfl (by decide) (by decide) rfl⟩

end Bjh
